import Mathlib

/-!
# A verification development for the `odex` indexed-collection library

This file gives a shallow embedding, in Lean 4, of the query pipeline of the
`odex` Python library (files `odex/condition.py`, `odex/plan.py`,
`odex/index.py`, `odex/optimize.py`, `odex/parse.py`, `odex/set.py`,
`odex/utils.py`), together with theorems settling the specification claims
about that pipeline.

Embedding conventions:

* Python's dynamically typed values are modelled by `Odex.Scalar` (hashable
  values: ints, bools, strings, None, floats) and `Odex.Val` (a scalar, a
  set of scalars, or a list of scalars).  Python forbids unhashable elements
  inside sets and dict keys, and every literal produced by the odex parser or
  fluent builders is a scalar or a flat collection of scalars, so collections
  of scalars suffice for the fragments the pipeline manipulates.  Floats are
  modelled by rationals; no claim below depends on float rounding.
* Fallible Python code (raising exceptions) is modelled with `Except Err`.
* Python sets are modelled as duplicate-free lists in insertion order;
  Python dicts as association lists in insertion order, keyed up to Python
  equality `==` (so `1`, `True` and `1.0` share one slot, as in CPython).
* In-place mutation of `IndexedSet` state is modelled by explicit state
  passing.  (A separate store-based model at the end of the file captures
  object identity and in-place plan mutation for the frame-effect claim.)
-/

namespace Odex

/-- Errors raised by the embedded Python code. Messages are abbreviated
forms of the CPython / odex messages. -/
inductive Err where
  | typeError (msg : String)
  | valueError (msg : String)
  | keyError
  | attributeError (msg : String)
  | zeroDivisionError
deriving DecidableEq, Repr

/-- Hashable Python scalar values: the values the odex parser and builders
put into `Literal`s and that object attributes carry.  Floats are modelled
exactly by rationals. -/
inductive Scalar where
  | int (n : Int)
  | bool (b : Bool)
  | str (s : String)
  | none
  | float (q : ℚ)
deriving DecidableEq, Repr

/-- A Python value flowing through the matcher: a scalar, a set of scalars,
or a list of scalars. Sets may only contain hashable values, hence scalars. -/
inductive Val where
  | scalar (s : Scalar)
  | set (elems : List Scalar)
  | list (elems : List Scalar)
deriving DecidableEq, Repr

/-- Shorthand for an int value. -/
def Val.int (n : Int) : Val := .scalar (.int n)

/-- Shorthand for a bool value. -/
def Val.bool (b : Bool) : Val := .scalar (.bool b)

/-- Shorthand for a string value. -/
def Val.str (s : String) : Val := .scalar (.str s)

/-- Python numeric view of a scalar: ints and bools are integers
(`True == 1`, `False == 0`), floats are rationals. -/
def Scalar.asRat? : Scalar → Option ℚ
  | .int n => some (n : ℚ)
  | .bool b => some (if b then 1 else 0)
  | .float q => some q
  | _ => Option.none

/-- Python `==` on scalars: numeric values compare across int/bool/float;
strings compare as strings; `None` equals only itself; any other mixed pair
is unequal. Integer-only pairs avoid the rational cast so that concrete
evaluations reduce inside the kernel. -/
def Scalar.pyEq : Scalar → Scalar → Bool
  | .int a, .int b => a == b
  | .int a, .bool b => a == (if b then 1 else 0)
  | .bool a, .int b => (if a then 1 else 0 : Int) == b
  | .bool a, .bool b => a == b
  | .str a, .str b => a == b
  | .none, .none => true
  | a, b =>
    match a.asRat?, b.asRat? with
    | some x, some y => x == y
    | _, _ => false

/-- Membership of a scalar in a list of scalars, up to Python `==`. -/
def Scalar.memList (s : Scalar) (xs : List Scalar) : Bool :=
  xs.any (fun x => Scalar.pyEq x s)

/-- Insert a scalar into a Python set (deduplicated by `==`). -/
def pySetInsert (xs : List Scalar) (s : Scalar) : List Scalar :=
  if Scalar.memList s xs then xs else xs ++ [s]

/-- Python `==` on values: scalars as above; sets compare by mutual
membership; lists compare componentwise; a set never equals a list. -/
def Val.pyEq : Val → Val → Bool
  | .scalar a, .scalar b => Scalar.pyEq a b
  | .set a, .set b =>
    a.all (fun x => Scalar.memList x b) && b.all (fun x => Scalar.memList x a)
  | .list a, .list b =>
    a.length == b.length && (a.zip b).all (fun p => Scalar.pyEq p.1 p.2)
  | _, _ => false

/-- Python truthiness: nonzero numbers, nonempty strings and nonempty
collections are truthy; `None`, `0`, `""` and empty collections are falsy. -/
def Val.truthy : Val → Bool
  | .scalar (.int n) => !(n == 0)
  | .scalar (.bool b) => b
  | .scalar (.str s) => !(s == "")
  | .scalar .none => false
  | .scalar (.float q) => !(q == 0)
  | .set xs => !xs.isEmpty
  | .list xs => !xs.isEmpty

/-- Python `<` on scalars: numeric pairs compare numerically (integer-only
pairs avoid the rational cast), strings lexicographically; any other pair
raises `TypeError`. -/
def Scalar.pyLt : Scalar → Scalar → Except Err Bool
  | .int a, .int b => .ok (decide (a < b))
  | .int a, .bool b => .ok (decide (a < if b then 1 else 0))
  | .bool a, .int b => .ok (decide ((if a then 1 else 0 : Int) < b))
  | .bool a, .bool b => .ok (decide ((if a then 1 else 0 : Int) < if b then 1 else 0))
  | .str a, .str b => .ok (decide (a < b))
  | a, b =>
    match a.asRat?, b.asRat? with
    | some x, some y => .ok (decide (x < y))
    | _, _ => .error (.typeError "unorderable types")

/-- Python `<` on values: scalars as above; sets order by proper subset;
lists lexicographically; mixed kinds raise `TypeError`. -/
def Val.pyLt : Val → Val → Except Err Bool
  | .scalar a, .scalar b => Scalar.pyLt a b
  | .set a, .set b =>
    .ok (a.all (fun x => Scalar.memList x b) && !(b.all (fun x => Scalar.memList x a)))
  | .list a, .list b => listLt a b
  | _, _ => .error (.typeError "unorderable types")
where
  /-- Lexicographic `<` on lists of scalars, Python style. -/
  listLt : List Scalar → List Scalar → Except Err Bool
  | [], [] => .ok false
  | [], _ :: _ => .ok true
  | _ :: _, [] => .ok false
  | a :: as, b :: bs => do
    if Scalar.pyEq a b then
      listLt as bs
    else
      Scalar.pyLt a b

/-- Python `<=` on values: sets order by subset; otherwise `a < b or a == b`
agrees with CPython on the modelled values. -/
def Val.pyLe : Val → Val → Except Err Bool
  | .set a, .set b => .ok (a.all (fun x => Scalar.memList x b))
  | a, b => do
    let lt ← Val.pyLt a b
    .ok (lt || Val.pyEq a b)

/-! ## Conditions (`odex/condition.py`)

The source represents each operator as a subclass of `BinOp` or `UnaryOp`;
the embedding uses kind tags named after those subclasses.  `Condition`
carries the same data as the Python dataclasses. -/

/-- The binary-operator subclasses of `condition.BinOp`, by source name. -/
inductive BinOpKind where
  | Add | Div | FloorDiv | BitwiseAnd | Xor | BitwiseOr | Pow | Is
  | Lshift | Mod | Mul | Rshift | Sub
  | Lt | Le | Gt | Ge | Eq | Ne | Or | And | In
deriving DecidableEq, Repr

/-- The unary-operator subclasses of `condition.UnaryOp`. -/
inductive UnaryOpKind where
  | Not | Invert
deriving DecidableEq, Repr

/-- A node of the odex expression algebra (`condition.Condition`). -/
inductive Condition where
  | literal (value : Val)
  | attribute (name : String)
  | array (items : List Condition)
  | binOp (kind : BinOpKind) (left : Condition) (right : Condition)
  | unaryOp (kind : UnaryOpKind) (operand : Condition)

/-- `condition.and_`: left-associative fold of `And` over a nonempty
sequence of conditions (`reduce(lambda l, r: And(l, r), conditions)`). -/
def and_ (c : Condition) (cs : List Condition) : Condition :=
  cs.foldl (fun l r => .binOp .And l r) c

/-! ## The operator table (`IndexedSet.BINOPS` / `UNARY_OPS`, `odex/set.py`)

`match_binop` evaluates both children and only then applies the table entry,
so `And`/`Or` receive already-computed values; the lambdas `l and r` /
`l or r` then merely select one of the two values. -/

/-- Python `in`: membership in a set or list up to `==`, substring test for
strings; any other right operand is not iterable and raises `TypeError`.
Testing an unhashable value against a set raises `TypeError` as in CPython. -/
def pyIn (l r : Val) : Except Err Bool :=
  match r with
  | .set xs =>
    match l with
    | .scalar s => .ok (Scalar.memList s xs)
    | _ => .error (.typeError "unhashable type")
  | .list xs =>
    match l with
    | .scalar s => .ok (Scalar.memList s xs)
    | _ => .ok false
  | .scalar (.str rs) =>
    match l with
    | .scalar (.str ls) => .ok (decide (List.IsInfix ls.data rs.data))
    | _ => .error (.typeError "argument must be str")
  | _ => .error (.typeError "argument is not iterable")

/-- Integer view of a scalar for arithmetic: bools act as 0/1. -/
def Scalar.asInt? : Scalar → Option Int
  | .int n => some n
  | .bool b => some (if b then 1 else 0)
  | _ => Option.none

/-- Python `+` (operator.add): integer arithmetic (bools as ints), exact
float arithmetic on rationals, string and list concatenation; other pairs
raise `TypeError`. -/
def pyAdd : Val → Val → Except Err Val
  | .scalar (.str a), .scalar (.str b) => .ok (.str (a ++ b))
  | .list a, .list b => .ok (.list (a ++ b))
  | .scalar a, .scalar b =>
    match a.asInt?, b.asInt? with
    | some x, some y => .ok (.int (x + y))
    | _, _ =>
      match a.asRat?, b.asRat? with
      | some x, some y => .ok (.scalar (.float (x + y)))
      | _, _ => .error (.typeError "unsupported operand types")
  | _, _ => .error (.typeError "unsupported operand types")

/-- Python `-` (operator.sub): numbers subtract; sets take set difference. -/
def pySub : Val → Val → Except Err Val
  | .set a, .set b => .ok (.set (a.filter (fun x => !Scalar.memList x b)))
  | .scalar a, .scalar b =>
    match a.asInt?, b.asInt? with
    | some x, some y => .ok (.int (x - y))
    | _, _ =>
      match a.asRat?, b.asRat? with
      | some x, some y => .ok (.scalar (.float (x - y)))
      | _, _ => .error (.typeError "unsupported operand types")
  | _, _ => .error (.typeError "unsupported operand types")

/-- Python `*` (operator.mul) on numbers. -/
def pyMul : Val → Val → Except Err Val
  | .scalar a, .scalar b =>
    match a.asInt?, b.asInt? with
    | some x, some y => .ok (.int (x * y))
    | _, _ =>
      match a.asRat?, b.asRat? with
      | some x, some y => .ok (.scalar (.float (x * y)))
      | _, _ => .error (.typeError "unsupported operand types")
  | _, _ => .error (.typeError "unsupported operand types")

/-- Python `/` (operator.truediv): exact division producing a float;
division by zero raises `ZeroDivisionError`. -/
def pyTrueDiv : Val → Val → Except Err Val
  | .scalar a, .scalar b =>
    match a.asRat?, b.asRat? with
    | some x, some y =>
      if y == 0 then .error .zeroDivisionError
      else .ok (.scalar (.float (x / y)))
    | _, _ => .error (.typeError "unsupported operand types")
  | _, _ => .error (.typeError "unsupported operand types")

/-- Python `//` (operator.floordiv) on integers: rounds toward negative
infinity (`Int.fdiv`). Float operands are floored rationals. -/
def pyFloorDiv : Val → Val → Except Err Val
  | .scalar a, .scalar b =>
    match a.asInt?, b.asInt? with
    | some x, some y =>
      if y == 0 then .error .zeroDivisionError else .ok (.int (Int.fdiv x y))
    | _, _ =>
      match a.asRat?, b.asRat? with
      | some x, some y =>
        if y == 0 then .error .zeroDivisionError
        else .ok (.scalar (.float ((x / y).floor : ℚ)))
      | _, _ => .error (.typeError "unsupported operand types")
  | _, _ => .error (.typeError "unsupported operand types")

/-- Python `%` (operator.mod) on integers: result has the divisor's sign
(`Int.fmod`).  Float operands follow the same floor convention. -/
def pyMod : Val → Val → Except Err Val
  | .scalar a, .scalar b =>
    match a.asInt?, b.asInt? with
    | some x, some y =>
      if y == 0 then .error .zeroDivisionError else .ok (.int (Int.fmod x y))
    | _, _ =>
      match a.asRat?, b.asRat? with
      | some x, some y =>
        if y == 0 then .error .zeroDivisionError
        else .ok (.scalar (.float (x - y * ((x / y).floor : ℚ))))
      | _, _ => .error (.typeError "unsupported operand types")
  | _, _ => .error (.typeError "unsupported operand types")

/-- Python `**` (operator.pow) on integers: a nonnegative exponent gives an
integer, a negative exponent gives an exact float (CPython gives a float). -/
def pyPow : Val → Val → Except Err Val
  | .scalar a, .scalar b =>
    match a.asInt?, b.asInt? with
    | some x, some y =>
      if 0 ≤ y then .ok (.int (x ^ y.toNat))
      else if x == 0 then .error .zeroDivisionError
      else .ok (.scalar (.float ((x : ℚ) ^ (y : ℤ))))
    | _, _ => .error (.typeError "unsupported operand types")
  | _, _ => .error (.typeError "unsupported operand types")

/-- Python `<<` / `>>` on integers: negative shift counts raise
`ValueError`; right shift is arithmetic (floor). -/
def pyShift (isLeft : Bool) : Val → Val → Except Err Val
  | .scalar a, .scalar b =>
    match a.asInt?, b.asInt? with
    | some x, some y =>
      if y < 0 then .error (.valueError "negative shift count")
      else if isLeft then .ok (.int (x * 2 ^ y.toNat))
      else .ok (.int (Int.fdiv x (2 ^ y.toNat)))
    | _, _ => .error (.typeError "unsupported operand types")
  | _, _ => .error (.typeError "unsupported operand types")

/-- Python `&`, `|`, `^`: two's-complement bitwise on integers, and the
corresponding set operations on sets. -/
def pyBitwise (k : BinOpKind) : Val → Val → Except Err Val
  | .set a, .set b =>
    match k with
    | .BitwiseAnd => .ok (.set (a.filter (fun x => Scalar.memList x b)))
    | .BitwiseOr => .ok (.set (b.foldl pySetInsert a))
    | _ =>
      .ok (.set ((a.filter (fun x => !Scalar.memList x b)) ++
        (b.filter (fun x => !Scalar.memList x a))))
  | .scalar a, .scalar b =>
    match a.asInt?, b.asInt? with
    | some x, some y =>
      match k with
      | .BitwiseAnd => .ok (.int (Int.land x y))
      | .BitwiseOr => .ok (.int (Int.lor x y))
      | _ => .ok (.int (Int.xor x y))
    | _, _ => .error (.typeError "unsupported operand types")
  | _, _ => .error (.typeError "unsupported operand types")

/-- Python `is`: modelled as structural equality on scalars (CPython
identity coincides with equality for `None`, bools and the interned values
exercised here) and as `False` on collections (distinct objects). -/
def pyIs : Val → Val → Bool
  | .scalar a, .scalar b => a == b
  | _, _ => false

/-- The entry of `IndexedSet.BINOPS` for `kind`, applied to the two
already-evaluated operand values (as `match_binop` does).  `And`/`Or` are
the lambdas `l and r` / `l or r`: evaluation is eager, only the selection
of the result value is lazy. -/
def binOpEval (kind : BinOpKind) (l r : Val) : Except Err Val :=
  match kind with
  | .Add => pyAdd l r
  | .Sub => pySub l r
  | .Mul => pyMul l r
  | .Div => pyTrueDiv l r
  | .FloorDiv => pyFloorDiv l r
  | .Mod => pyMod l r
  | .Pow => pyPow l r
  | .Lshift => pyShift true l r
  | .Rshift => pyShift false l r
  | .BitwiseAnd => pyBitwise .BitwiseAnd l r
  | .BitwiseOr => pyBitwise .BitwiseOr l r
  | .Xor => pyBitwise .Xor l r
  | .Is => .ok (.bool (pyIs l r))
  | .Lt => do .ok (.bool (← Val.pyLt l r))
  | .Le => do .ok (.bool (← Val.pyLe l r))
  | .Gt => do .ok (.bool (← Val.pyLt r l))
  | .Ge => do .ok (.bool (← Val.pyLe r l))
  | .Eq => .ok (.bool (Val.pyEq l r))
  | .Ne => .ok (.bool (!Val.pyEq l r))
  | .And => .ok (if l.truthy then r else l)
  | .Or => .ok (if l.truthy then l else r)
  | .In => do .ok (.bool (← pyIn l r))

/-- The entry of `IndexedSet.UNARY_OPS` for `kind`, applied to the
evaluated operand. -/
def unaryOpEval (kind : UnaryOpKind) (v : Val) : Except Err Val :=
  match kind with
  | .Not => .ok (.bool (!v.truthy))
  | .Invert =>
    match v with
    | .scalar s =>
      match s.asInt? with
      | some x => .ok (.int (-x - 1))
      | _ => .error (.typeError "bad operand type for unary invert")
    | _ => .error (.typeError "bad operand type for unary invert")

/-! ## Stored objects and the facade state (`odex/set.py`, `odex/index.py`)

A stored object is modelled as an identity tag plus its native attribute
map (objects are immutable values here; the claims never mutate a member's
attributes between operations).  The `IndexedSet` facade owns the object
set, the `attrs` map of extra attribute getters, and the registered
indexes: `indexArr` lists the index objects in registration order and plans
reference them by position (modelling the Python object references), while
`registry` is the facade's `indexes` dict mapping an attribute name to the
indexes registered under it. -/

/-- A member object: identity tag plus named attribute values. -/
structure Obj where
  oid : Nat
  fields : List (String × Val)
deriving DecidableEq, Repr

/-- First binding of `key` in an association list with `String` keys
(Python dict `get`; string keys compare by value). -/
def strGet {β : Type} (m : List (String × β)) (key : String) : Option β :=
  match m with
  | [] => Option.none
  | (k, v) :: rest => if k == key then some v else strGet rest key

/-- The kinds of index shipped with odex.  `HashIndex` methods that
`SortedDictIndex` and `InvertedIndex` inherit are shared; the overridden
methods dispatch on this tag. -/
inductive IndexKind where
  | hash
  | sortedDict
  | inverted
deriving DecidableEq, Repr

/-- State of a `HashIndex` (or subclass): the indexed attribute and the
map from attribute value to the set of objects carrying it.  Keys are
hashable values (scalars), compared by Python `==`; a `SortedDictIndex`
keeps its keys sorted, which only affects the unreachable `range` method,
so one association-list representation serves all kinds. -/
structure HashIndex where
  kind : IndexKind
  attr : String
  idx : List (Scalar × List Obj)
deriving DecidableEq, Repr

/-- The `IndexedSet` facade state. -/
structure IndexedSet where
  objs : List Obj
  attrs : List (String × (Obj → Except Err Val))
  indexArr : List HashIndex
  registry : List (String × List Nat)

/-- `IndexedSet.getattr`: consult the `attrs` getters first, then the
object's native attributes; a missing attribute raises `AttributeError`. -/
def IndexedSet.pygetattr (s : IndexedSet) (o : Obj) (item : String) : Except Err Val :=
  match strGet s.attrs item with
  | some f => f o
  | Option.none =>
    match strGet o.fields item with
    | some v => .ok v
    | Option.none => .error (.attributeError item)

/-! ## The matcher (`IndexedSet.match`)

Every condition kind has a `matchers` entry, so the embedded matcher is
total over constructors; `match_binop` evaluates both children before
applying the operator table. An `Array` evaluates to a Python set of the
matched items (unhashable items raise `TypeError` as in CPython). -/

/-- Insert an evaluated array item into the Python set being built. -/
def pySetInsertVal (xs : List Scalar) (v : Val) : Except Err (List Scalar) :=
  match v with
  | .scalar s => .ok (pySetInsert xs s)
  | _ => .error (.typeError "unhashable type")

mutual

/-- `IndexedSet.match`: interpret a condition against one object. -/
def IndexedSet.matchCond (s : IndexedSet) (c : Condition) (o : Obj) : Except Err Val :=
  match c with
  | .literal v => .ok v
  | .attribute name => s.pygetattr o name
  | .array items => do
    let xs ← IndexedSet.matchItems s items o []
    .ok (.set xs)
  | .binOp kind l r => do
    let lv ← IndexedSet.matchCond s l o
    let rv ← IndexedSet.matchCond s r o
    binOpEval kind lv rv
  | .unaryOp kind e => do
    let v ← IndexedSet.matchCond s e o
    unaryOpEval kind v

/-- Evaluate array items in order, accumulating the set
`{self.match(i, obj) for i in condition.items}`. -/
def IndexedSet.matchItems (s : IndexedSet) (items : List Condition) (o : Obj)
    (acc : List Scalar) : Except Err (List Scalar) :=
  match items with
  | [] => .ok acc
  | i :: rest => do
    let v ← IndexedSet.matchCond s i o
    let acc' ← pySetInsertVal acc v
    IndexedSet.matchItems s rest o acc'

end

/-! ## Ranges (`odex/plan.py`: `Unset`, `Bound`, `Range`)

`OptionalBound` is modelled by `Option Bound` with `Option.none` for the
`UNSET` sentinel. -/

/-- `plan.Bound`: a NamedTuple of an endpoint value and its inclusivity. -/
structure Bound where
  value : Val
  inclusive : Bool
deriving DecidableEq, Repr

/-- Python `==` on the `Bound` NamedTuple: componentwise, with the value
component compared by Python `==`. -/
def Bound.pyEq (a b : Bound) : Bool :=
  Val.pyEq a.value b.value && a.inclusive == b.inclusive

/-- `plan.Range`: an interval with independently optional, independently
inclusive endpoints.  The dataclass has exactly the two fields `left` and
`right`. -/
structure Range where
  left : Option Bound := Option.none
  right : Option Bound := Option.none
deriving DecidableEq, Repr

/-- `Range._combine_bounds(a, b, compare)`: if one bound is `UNSET`, use
the other; if the bounds are `==` as whole tuples, AND the inclusivities;
otherwise return whichever of the two the comparison prefers.  The
comparison on values can raise `TypeError` for unorderable values. -/
def Range.combineBounds (a b : Option Bound)
    (compare : Val → Val → Except Err Bool) : Except Err (Option Bound) :=
  match a, b with
  | Option.none, b => .ok b
  | some a', Option.none => .ok (some a')
  | some a', some b' =>
    if Bound.pyEq a' b' then
      .ok (some ⟨a'.value, a'.inclusive && b'.inclusive⟩)
    else do
      let c ← compare a'.value b'.value
      if c then .ok (some a') else .ok (some b')

/-- `Range.combine(other)`: intersect two ranges; `Option.none` in the
result models Python `None`, the empty-interval signal. The left bounds are
combined with `lambda a, b: a > b` and the right bounds with
`lambda a, b: a < b`; the result is the empty signal when
`left.value > right.value`, or `left.value >= right.value` with at least
one exclusive endpoint. -/
def Range.combine (self other : Range) : Except Err (Option Range) := do
  let left ← Range.combineBounds self.left other.left (fun a b => Val.pyLt b a)
  let right ← Range.combineBounds self.right other.right (fun a b => Val.pyLt a b)
  match left, right with
  | some l, some r =>
    if l.inclusive && r.inclusive then do
      let bad ← Val.pyLt r.value l.value
      if bad then .ok Option.none else .ok (some ⟨some l, some r⟩)
    else do
      let bad ← Val.pyLe r.value l.value
      if bad then .ok Option.none else .ok (some ⟨some l, some r⟩)
  | l, r => .ok (some ⟨l, r⟩)

/-! ## Plans (`odex/plan.py`)

Plans reference an index by its position in `IndexedSet.indexArr`,
modelling the Python object reference held by `IndexLookup.index` /
`IndexRange.index`. -/

/-- A query-plan node. -/
inductive Plan where
  | empty
  | scanFilter (condition : Condition)
  | filter (condition : Condition) (input : Plan)
  | intersect (inputs : List Plan)
  | union (inputs : List Plan)
  | indexLookup (index : Nat) (value : Val)
  | indexRange (index : Nat) (range : Range)

/-- `Planner.plan`: lower a condition to a plan (`And` → `Intersect`,
`Or` → `Union`, anything else → `ScanFilter`). -/
def Planner.plan : Condition → Plan
  | .binOp .And l r => .intersect [Planner.plan l, Planner.plan r]
  | .binOp .Or l r => .union [Planner.plan l, Planner.plan r]
  | c => .scanFilter c

/-! ## Index operations (`odex/index.py`) -/

/-- First group bound to a key `==`-equal to `k` in an index map
(Python dict lookup; the map never holds two `==`-equal keys). -/
def mapGet (m : List (Scalar × List Obj)) (k : Scalar) : Option (List Obj) :=
  match m with
  | [] => Option.none
  | (k', g) :: rest => if Scalar.pyEq k' k then some g else mapGet rest k

/-- `self.idx.setdefault(val, set()).add(o)`: append `o` to the group for
`val`, creating the group if absent. -/
def mapAddObj (m : List (Scalar × List Obj)) (k : Scalar) (o : Obj) :
    List (Scalar × List Obj) :=
  match m with
  | [] => [(k, [o])]
  | (k', g) :: rest =>
    if Scalar.pyEq k' k then
      (k', if g.contains o then g else g ++ [o]) :: rest
    else
      (k', g) :: mapAddObj rest k o

/-- `self.idx.setdefault(val, set()).remove(o)`: look up (or create) the
group for `val` and remove `o` from it; `set.remove` raises `KeyError`
when `o` is not in the group. -/
def mapRemoveObj (m : List (Scalar × List Obj)) (k : Scalar) (o : Obj) :
    Except Err (List (Scalar × List Obj)) :=
  match m with
  | [] => .error .keyError
  | (k', g) :: rest =>
    if Scalar.pyEq k' k then
      if g.contains o then .ok ((k', g.erase o) :: rest) else .error .keyError
    else do
      let rest' ← mapRemoveObj rest k o
      .ok ((k', g) :: rest')

/-- Iterate a collection-valued attribute (for `InvertedIndex`): sets and
lists yield their elements, strings their characters; anything else is not
iterable. -/
def pyIterate (v : Val) : Except Err (List Val) :=
  match v with
  | .set xs => .ok (xs.map Val.scalar)
  | .list xs => .ok (xs.map Val.scalar)
  | .scalar (.str s) => .ok (s.data.map (fun c => Val.str (String.mk [c])))
  | _ => .error (.typeError "object is not iterable")

/-- `_extract_values(obj, ctx)`: `HashIndex`/`SortedDictIndex` yield the
single value `ctx.getattr(obj, attr)`; `InvertedIndex` iterates it.  The
context is the owning `IndexedSet`, used only through `getattr`. -/
def HashIndex.extractValues (ix : HashIndex) (ctx : IndexedSet) (o : Obj) :
    Except Err (List Val) :=
  match ix.kind with
  | .inverted => do
    let v ← ctx.pygetattr o ix.attr
    pyIterate v
  | _ => do
    let v ← ctx.pygetattr o ix.attr
    .ok [v]

/-- Keys of the index map are hashable values; inserting an unhashable
value raises `TypeError`. -/
def asKey (v : Val) : Except Err Scalar :=
  match v with
  | .scalar s => .ok s
  | _ => .error (.typeError "unhashable type")

/-- The inner loop of `HashIndex.add`:
`for val in self._extract_values(o, ctx): self.idx.setdefault(val, set()).add(o)`. -/
def HashIndex.addVals (ix : HashIndex) (o : Obj) : List Val → Except Err HashIndex
  | [] => .ok ix
  | v :: vs => do
    let k ← asKey v
    HashIndex.addVals { ix with idx := mapAddObj ix.idx k o } o vs

/-- `HashIndex.add(objs, ctx)`: for each object, insert it under each of
its extracted values. -/
def HashIndex.add (ix : HashIndex) (ctx : IndexedSet) (objs : List Obj) :
    Except Err HashIndex :=
  match objs with
  | [] => .ok ix
  | o :: rest => do
    let vals ← ix.extractValues ctx o
    let ix' ← ix.addVals o vals
    HashIndex.add ix' ctx rest

/-- The inner loop of `HashIndex.remove`:
`for val in self._extract_values(o, ctx): self.idx.setdefault(val, set()).remove(o)`. -/
def HashIndex.removeVals (ix : HashIndex) (o : Obj) : List Val → Except Err HashIndex
  | [] => .ok ix
  | v :: vs => do
    let k ← asKey v
    let m ← mapRemoveObj ix.idx k o
    HashIndex.removeVals { ix with idx := m } o vs

/-- `HashIndex.remove(objs, ctx)`: for each object, remove it from the
group of each of its extracted values; `set.remove` raises `KeyError` when
the object is missing from a (possibly freshly created) group. -/
def HashIndex.remove (ix : HashIndex) (ctx : IndexedSet) (objs : List Obj) :
    Except Err HashIndex :=
  match objs with
  | [] => .ok ix
  | o :: rest => do
    let vals ← ix.extractValues ctx o
    let ix' ← ix.removeVals o vals
    HashIndex.remove ix' ctx rest

/-- `HashIndex.lookup(value)`: `self.idx.get(value) or set()` — a missing
or empty group gives a fresh empty set. Looking up an unhashable value
raises `TypeError` as in CPython. -/
def HashIndex.lookup (ix : HashIndex) (value : Val) : Except Err (List Obj) :=
  match value with
  | .scalar s =>
    match mapGet ix.idx s with
    | some g => .ok (if g.isEmpty then [] else g)
    | Option.none => .ok []
  | _ => .error (.typeError "unhashable type")

/-- `HashIndex.range` / `SortedDictIndex.range`.  `HashIndex` always
raises.  The `SortedDictIndex` override reads `range.left_inclusive` and
`range.right_inclusive`, attributes the `Range` dataclass does not have,
so any range with a set endpoint raises `AttributeError`; with both
endpoints `UNSET` it slices the whole map and unions the groups. -/
def HashIndex.rangeQuery (ix : HashIndex) (r : Range) : Except Err (List Obj) :=
  match ix.kind with
  | .sortedDict =>
    match r.left, r.right with
    | Option.none, Option.none =>
      .ok (ix.idx.foldl (fun acc g => g.2.foldl (fun a o =>
        if a.contains o then a else a ++ [o]) acc) [])
    | _, _ => .error (.attributeError "left_inclusive")
  | _ => .error (.valueError "does not support range queries")

/-- The field names of the frozen dataclass `Range` (plan.py): exactly
`left` and `right`. -/
def Range.fieldNames : List String := ["left", "right"]

/-- Does a Python call `Range(**kwargs)` with these keyword names bind?
The generated dataclass `__init__` accepts only the field names; any other
keyword raises `TypeError`. -/
def rangeKwNamesOk (names : List String) : Bool :=
  names.all (fun n => Range.fieldNames.contains n)

/-- `HashIndex.match(condition, operand)`: an `Eq` whose opposite operand
is a literal becomes an `IndexLookup`; an `In` whose member side is the
attribute and whose container operand is an `Array` of literals becomes a
`Union` of lookups; anything else is `None`.  `selfId` is the position of
this index in `indexArr`; `operandIsRight` models the identity test
`operand is condition.right`. -/
def HashIndex.matchBase (selfId : Nat) (kind : BinOpKind)
    (left right : Condition) (operandIsRight : Bool) : Option Plan :=
  let operand := if operandIsRight then right else left
  match kind, operand with
  | .Eq, .literal v => some (.indexLookup selfId v)
  | .In, .array items =>
    if operandIsRight && items.all (fun i => match i with
        | .literal _ => true
        | _ => false) then
      some (.union (items.map (fun i => match i with
        | .literal v => .indexLookup selfId v
        | _ => .empty)))
    else
      Option.none
  | _, _ => Option.none

/-- `SortedDictIndex.INVERSE_COMPARISONS`. -/
def inverseComparison : BinOpKind → BinOpKind
  | .Lt => .Gt
  | .Gt => .Lt
  | .Le => .Ge
  | .Ge => .Le
  | k => k

/-- `SortedDictIndex.match`: for `<`, `<=`, `>`, `>=` against a literal it
inverts the operator when the literal is on the left, then builds a range —
but the source calls `Range(left=..., left_inclusive=...)` (resp. `right`,
`right_inclusive`), keywords the `Range` dataclass does not accept, so
every comparison branch raises `TypeError`.  The continuation after the
keyword check records the range those keywords describe; it is
unreachable because the check always fails.  Non-comparisons fall back to
`HashIndex.match`. -/
def SortedDictIndex.matchCond (selfId : Nat) (kind : BinOpKind)
    (left right : Condition) (operandIsRight : Bool) : Except Err (Option Plan) :=
  let operand := if operandIsRight then right else left
  let isComparison := kind == .Lt || kind == .Le || kind == .Gt || kind == .Ge
  match operand with
  | .literal v =>
    if isComparison then
      let comparison := if !operandIsRight then inverseComparison kind else kind
      match comparison with
      | .Lt =>
        if rangeKwNamesOk ["right", "right_inclusive"] then
          .ok (some (.indexRange selfId ⟨Option.none, some ⟨v, false⟩⟩))
        else .error (.typeError "Range got an unexpected keyword argument")
      | .Le =>
        if rangeKwNamesOk ["right", "right_inclusive"] then
          .ok (some (.indexRange selfId ⟨Option.none, some ⟨v, true⟩⟩))
        else .error (.typeError "Range got an unexpected keyword argument")
      | .Gt =>
        if rangeKwNamesOk ["left", "left_inclusive"] then
          .ok (some (.indexRange selfId ⟨some ⟨v, false⟩, Option.none⟩))
        else .error (.typeError "Range got an unexpected keyword argument")
      | _ =>
        if rangeKwNamesOk ["left", "left_inclusive"] then
          .ok (some (.indexRange selfId ⟨some ⟨v, true⟩, Option.none⟩))
        else .error (.typeError "Range got an unexpected keyword argument")
    else
      .ok (HashIndex.matchBase selfId kind left right operandIsRight)
  | _ => .ok (HashIndex.matchBase selfId kind left right operandIsRight)

/-- `InvertedIndex.match`: an `In` whose member operand is a literal on the
left becomes an `IndexLookup`; everything else is `None` (no fallback to
`HashIndex.match`). -/
def InvertedIndex.matchCond (selfId : Nat) (kind : BinOpKind)
    (left right : Condition) (operandIsRight : Bool) : Option Plan :=
  let operand := if operandIsRight then right else left
  match kind, operand with
  | .In, .literal v =>
    if !operandIsRight then some (.indexLookup selfId v) else Option.none
  | _, _ => Option.none

/-- `index.match(condition, operand)` dispatched by index kind. -/
def HashIndex.matchCond (ix : HashIndex) (selfId : Nat) (kind : BinOpKind)
    (left right : Condition) (operandIsRight : Bool) : Except Err (Option Plan) :=
  match ix.kind with
  | .hash => .ok (HashIndex.matchBase selfId kind left right operandIsRight)
  | .sortedDict => SortedDictIndex.matchCond selfId kind left right operandIsRight
  | .inverted => .ok (InvertedIndex.matchCond selfId kind left right operandIsRight)

/-! ## Optimizer (`odex/optimize.py`)

`Plan.transform` recursively transforms children, then applies the rule to
the current node — a post-order rewrite.  The in-place mutation of
`SetOp.inputs` / `Filter.input` is rendered functionally here; the
store-based model at the end of the file keeps the mutation visible. -/

mutual

/-- `Plan.transform(transformer)`: transform child plans, then the node. -/
def Plan.transform (f : Plan → Except Err Plan) : Plan → Except Err Plan
  | .filter c inp => do
    let i ← Plan.transform f inp
    f (.filter c i)
  | .intersect ins => do
    let ins' ← Plan.transformList f ins
    f (.intersect ins')
  | .union ins => do
    let ins' ← Plan.transformList f ins
    f (.union ins')
  | p => f p

/-- `SetOp.transform_inputs`: transform each child in order. -/
def Plan.transformList (f : Plan → Except Err Plan) : List Plan → Except Err (List Plan)
  | [] => .ok []
  | p :: ps => do
    let p' ← Plan.transform f p
    let ps' ← Plan.transformList f ps
    .ok (p' :: ps')

end

/-- `MergeSetOps.transform`: inline children of the same concrete set
operation into the parent. -/
def MergeSetOps.transform : Plan → Plan
  | .intersect ins =>
    .intersect (ins.foldr (fun i acc =>
      (match i with | .intersect xs => xs | x => [x]) ++ acc) [])
  | .union ins =>
    .union (ins.foldr (fun i acc =>
      (match i with | .union xs => xs | x => [x]) ++ acc) [])
  | p => p

/-- `ctx.indexes.get(name) or []`. -/
def IndexedSet.indexesFor (s : IndexedSet) (name : String) : List Nat :=
  match strGet s.registry name with
  | some ids => ids
  | Option.none => []

/-- The loop of `UseIndex.transform`: probe each index registered under
the attribute, in registration order; the first plan returned replaces the
scan (`if match:` — plan objects are always truthy). -/
def UseIndex.firstMatch (s : IndexedSet) (kind : BinOpKind)
    (left right : Condition) (operandIsRight : Bool) :
    List Nat → Except Err (Option Plan)
  | [] => .ok Option.none
  | i :: rest => do
    match s.indexArr.get? i with
    | some ix => do
      let m ← ix.matchCond i kind left right operandIsRight
      match m with
      | some p => .ok (some p)
      | Option.none => UseIndex.firstMatch s kind left right operandIsRight rest
    | Option.none =>
      -- unreachable: registry entries always point into indexArr
      .error (.valueError "invalid index reference")

/-- `UseIndex.transform`: replace a `ScanFilter` over a binary operation
with exactly one `Attribute` side by the first index match. -/
def UseIndex.transform (s : IndexedSet) : Plan → Except Err Plan
  | .scanFilter c =>
    match c with
    | .binOp kind l r =>
      match l, r with
      | .attribute _, .attribute _ => .ok (.scanFilter c)
      | .attribute name, _ => do
        let m ← UseIndex.firstMatch s kind l r true (s.indexesFor name)
        match m with
        | some p => .ok p
        | Option.none => .ok (.scanFilter c)
      | _, .attribute name => do
        let m ← UseIndex.firstMatch s kind l r false (s.indexesFor name)
        match m with
        | some p => .ok p
        | Option.none => .ok (.scanFilter c)
      | _, _ => .ok (.scanFilter c)
    | _ => .ok (.scanFilter c)
  | p => .ok p

/-- Group the `IndexLookup`/`IndexRange` inputs of an intersect by their
index (a `defaultdict` keyed by the index object: first-seen order of
groups, input order within a group). -/
def CombineRanges.groupByIndex (ins : List Plan) : List (Nat × List Plan) :=
  ins.foldl (fun gs i =>
    match i with
    | .indexLookup idx _ => addTo gs idx i
    | .indexRange idx _ => addTo gs idx i
    | _ => gs) []
where
  /-- Append a plan to its index's group, creating the group if new. -/
  addTo (gs : List (Nat × List Plan)) (idx : Nat) (p : Plan) : List (Nat × List Plan) :=
    match gs with
    | [] => [(idx, [p])]
    | (k, ps) :: rest =>
      if k == idx then (k, ps ++ [p]) :: rest else (k, ps) :: addTo rest idx p

/-- The non-ranged inputs of the intersect, in order. -/
def CombineRanges.others (ins : List Plan) : List Plan :=
  ins.filter (fun i =>
    match i with
    | .indexLookup _ _ => false
    | .indexRange _ _ => false
    | _ => true)

/-- Treat an `IndexLookup` as the single-point range `[v, v]`. -/
def CombineRanges.planToRange : Plan → Range
  | .indexLookup _ v => ⟨some ⟨v, true⟩, some ⟨v, true⟩⟩
  | .indexRange _ r => r
  | _ => ⟨Option.none, Option.none⟩  -- unreachable: groups hold only ranged plans

/-- Fold a group's ranges with `Range.combine`; Python `None` (the empty
signal) propagates as `Option.none`. -/
def CombineRanges.foldRanges (acc : Range) : List Range → Except Err (Option Range)
  | [] => .ok (some acc)
  | r :: rest => do
    let c ← Range.combine acc r
    match c with
    | some nr => CombineRanges.foldRanges nr rest
    | Option.none => .ok Option.none

/-- Process the index groups in order: a singleton group keeps its plan; a
larger group folds to a single `IndexRange`, and an empty combined range
aborts the whole rewrite (`Option.none` here models the early
`return Empty()`). -/
def CombineRanges.processGroups : List (Nat × List Plan) → Except Err (Option (List Plan))
  | [] => .ok (some [])
  | (idx, plans) :: rest =>
    match plans with
    | [] => CombineRanges.processGroups rest  -- unreachable: groups are created nonempty
    | [p] => do
      let tail ← CombineRanges.processGroups rest
      .ok (tail.map (fun t => p :: t))
    | p :: ps => do
      let folded ← CombineRanges.foldRanges (CombineRanges.planToRange p)
        (ps.map CombineRanges.planToRange)
      match folded with
      | Option.none => .ok Option.none
      | some nr => do
        let tail ← CombineRanges.processGroups rest
        .ok (tail.map (fun t => Plan.indexRange idx nr :: t))

/-- `CombineRanges.transform`: combine the ranged inputs of an intersect
per index; fold to `Empty` when a combination is empty; unwrap a
single-input result. -/
def CombineRanges.transform : Plan → Except Err Plan
  | .intersect ins => do
    let ranged ← CombineRanges.processGroups (CombineRanges.groupByIndex ins)
    match ranged with
    | Option.none => .ok .empty
    | some rangedPlans =>
      let inputs := rangedPlans ++ CombineRanges.others ins
      match inputs with
      | [single] => .ok single
      | _ => .ok (.intersect inputs)
  | p => .ok p

/-- `CombineFilters.transform`: fold the `ScanFilter` inputs of an
intersect into one condition; with no other inputs the intersect becomes a
single `ScanFilter`, otherwise a `Filter` over the remaining input(s). -/
def CombineFilters.transform : Plan → Plan
  | .intersect ins =>
    let filters := ins.filterMap (fun i =>
      match i with | .scanFilter c => some c | _ => Option.none)
    let others := ins.filter (fun i =>
      match i with | .scanFilter _ => false | _ => true)
    match filters with
    | [] => .intersect ins
    | c :: cs =>
      let combined := and_ c cs
      match others with
      | [] => .scanFilter combined
      | [o] => .filter combined o
      | _ => .filter combined (.intersect others)
  | p => p

/-- `Chain` with `DEFAULT_RULES`: run `MergeSetOps`, `UseIndex`,
`CombineRanges`, `CombineFilters` in order over the whole plan. -/
def Chain.run (s : IndexedSet) (p : Plan) : Except Err Plan := do
  let p1 ← Plan.transform (fun x => .ok (MergeSetOps.transform x)) p
  let p2 ← Plan.transform (UseIndex.transform s) p1
  let p3 ← Plan.transform CombineRanges.transform p2
  Plan.transform (fun x => .ok (CombineFilters.transform x)) p3

/-! ## Executor (`IndexedSet.execute`, `odex/set.py` and `odex/utils.py`)

The `executors` dispatch table built in `IndexedSet.__init__` has entries
for `ScanFilter`, `Filter`, `Union`, `Intersect` and `IndexLookup` only;
any other plan kind — including `Empty` and `IndexRange` — falls through
to `raise ValueError("Unsupported plan")`. -/

/-- Add an object to a Python result set (deduplicating). -/
def pyObjInsert (xs : List Obj) (o : Obj) : List Obj :=
  if xs.contains o then xs else xs ++ [o]

/-- Union of executed results (`set.union(*...)`). -/
def pyObjUnion (first : List Obj) (rest : List (List Obj)) : List Obj :=
  rest.foldl (fun acc g => g.foldl pyObjInsert acc) first

/-- Stable insertion sort of result sets by ascending size, modelling
`sorted(sets, key=len)`. -/
def sortBySize (sets : List (List Obj)) : List (List Obj) :=
  sets.foldl insertOne []
where
  /-- Insert after all elements of smaller or equal size (stability). -/
  insertOne (acc : List (List Obj)) (s : List Obj) : List (List Obj) :=
    match acc with
    | [] => [s]
    | t :: ts => if t.length ≤ s.length then t :: insertOne ts s else s :: t :: ts

/-- `utils.intersect`: `set.intersection` over the sets sorted by size;
called with no sets it raises `TypeError` (as `set.intersection(*[])`
does). -/
def utilsIntersect (sets : List (List Obj)) : Except Err (List Obj) :=
  match sortBySize sets with
  | [] => .error (.typeError "descriptor intersection needs an argument")
  | first :: rest => .ok (first.filter (fun o => rest.all (fun g => g.contains o)))

mutual

/-- `IndexedSet.execute`: dispatch on the plan kind through the
`executors` table; missing kinds (`Empty`, `IndexRange`, and any other)
raise `ValueError("Unsupported plan")`. -/
def IndexedSet.execute (s : IndexedSet) (p : Plan) : Except Err (List Obj) :=
  match p with
  | .scanFilter c => IndexedSet.scanWhere s c s.objs []
  | .filter c inp => do
    let base ← IndexedSet.execute s inp
    IndexedSet.scanWhere s c base []
  | .union ins => do
    let results ← IndexedSet.executeAll s ins
    match results with
    | [] => .error (.typeError "union needs an argument")
    | first :: rest => .ok (pyObjUnion first rest)
  | .intersect ins => do
    let results ← IndexedSet.executeAll s ins
    utilsIntersect results
  | .indexLookup i v =>
    match s.indexArr.get? i with
    | some ix => ix.lookup v
    | Option.none => .error (.valueError "invalid index reference")
  | _ => .error (.valueError "Unsupported plan")

/-- Execute the inputs of a set operation in enumeration order. -/
def IndexedSet.executeAll (s : IndexedSet) (ins : List Plan) :
    Except Err (List (List Obj)) :=
  match ins with
  | [] => .ok []
  | p :: ps => do
    let r ← IndexedSet.execute s p
    let rs ← IndexedSet.executeAll s ps
    .ok (r :: rs)

/-- The set comprehension `{o for o in base if self.match(condition, o)}`
(used by both `ScanFilter` with `base = self.objs` and `Filter` with
`base` the executed input). -/
def IndexedSet.scanWhere (s : IndexedSet) (c : Condition) (base : List Obj)
    (acc : List Obj) : Except Err (List Obj) :=
  match base with
  | [] => .ok acc
  | o :: rest => do
    let v ← IndexedSet.matchCond s c o
    IndexedSet.scanWhere s c rest (if v.truthy then pyObjInsert acc o else acc)

end

/-- The direct scan `{o ∈ C : match(c, o)}` that `filter` is specified to
agree with (the right-hand side of the equivalence invariant). -/
def IndexedSet.scanSet (s : IndexedSet) (c : Condition) : Except Err (List Obj) :=
  IndexedSet.scanWhere s c s.objs []

/-- `IndexedSet.filter` on an already-parsed condition: plan, optimize
with the default chain, execute. -/
def IndexedSet.filterCond (s : IndexedSet) (c : Condition) : Except Err (List Obj) := do
  let p := Planner.plan c
  let p' ← Chain.run s p
  s.execute p'

/-- `IndexedSet.optimize` with the default chain (exposed for plan-shape
statements). -/
def IndexedSet.optimizePlan (s : IndexedSet) (p : Plan) : Except Err Plan :=
  Chain.run s p

/-! ## Facade mutations (`IndexedSet.__init__/add/discard/update/difference_update`)

`_iter_indexes` walks the `indexes` dict: per attribute key in insertion
order, the indexes registered under it in registration order.  Each
mutation updates `self.objs` first and then each index in that order; an
index error aborts the call (the embedding returns the error and drops the
partially updated state, which no claim below observes). -/

/-- The ids yielded by `_iter_indexes`, in order. -/
def IndexedSet.iterIndexIds (s : IndexedSet) : List Nat :=
  (s.registry.map Prod.snd).flatten

/-- Update the index stored at position `i` (the in-place mutation of the
index object shared by `indexArr` and `registry`). -/
def IndexedSet.withIndex (s : IndexedSet) (i : Nat) (ix : HashIndex) : IndexedSet :=
  { s with indexArr := s.indexArr.set i ix }

/-- Run `index.add({objs}, self)` for each id, threading the state. -/
def IndexedSet.addToIndexes (s : IndexedSet) (objs : List Obj) :
    List Nat → Except Err IndexedSet
  | [] => .ok s
  | i :: rest =>
    match s.indexArr.get? i with
    | some ix => do
      let ix' ← ix.add s objs
      IndexedSet.addToIndexes (s.withIndex i ix') objs rest
    | Option.none => .error (.valueError "invalid index reference")

/-- Run `index.remove({objs}, self)` for each id, threading the state. -/
def IndexedSet.removeFromIndexes (s : IndexedSet) (objs : List Obj) :
    List Nat → Except Err IndexedSet
  | [] => .ok s
  | i :: rest =>
    match s.indexArr.get? i with
    | some ix => do
      let ix' ← ix.remove s objs
      IndexedSet.removeFromIndexes (s.withIndex i ix') objs rest
    | Option.none => .error (.valueError "invalid index reference")

/-- `IndexedSet.add(obj)`: add to `objs`, then to every index. -/
def IndexedSet.addObj (s : IndexedSet) (o : Obj) : Except Err IndexedSet :=
  let s1 := { s with objs := pyObjInsert s.objs o }
  s1.addToIndexes [o] s1.iterIndexIds

/-- `IndexedSet.discard(obj)`: `objs.discard` never raises, but
`index.remove` raises `KeyError` through `set.remove` when the object is
missing from a group. -/
def IndexedSet.discardObj (s : IndexedSet) (o : Obj) : Except Err IndexedSet :=
  let s1 := { s with objs := s.objs.erase o }
  s1.removeFromIndexes [o] s1.iterIndexIds

/-- `IndexedSet.update(objs)`. -/
def IndexedSet.updateObjs (s : IndexedSet) (objs : List Obj) : Except Err IndexedSet :=
  let s1 := { s with objs := objs.foldl pyObjInsert s.objs }
  s1.addToIndexes objs s1.iterIndexIds

/-- `IndexedSet.difference_update(objs)`. -/
def IndexedSet.differenceUpdateObjs (s : IndexedSet) (objs : List Obj) :
    Except Err IndexedSet :=
  let s1 := { s with objs := objs.foldl List.erase s.objs }
  s1.removeFromIndexes objs s1.iterIndexIds

/-- An index as configured at construction (kind and claimed attribute). -/
structure IndexSpec where
  kind : IndexKind
  attr : String

/-- Build the facade's `indexes` dict: for each index in registration
order, append its id under each of its attributes (each shipped index
claims exactly one attribute). -/
def buildRegistry (specs : List IndexSpec) : List (String × List Nat) :=
  go specs 0 []
where
  /-- Append `id` to the entry for `attr`, creating it if new. -/
  addId (reg : List (String × List Nat)) (attr : String) (i : Nat) :
      List (String × List Nat) :=
    match reg with
    | [] => [(attr, [i])]
    | (k, ids) :: rest =>
      if k == attr then (k, ids ++ [i]) :: rest else (k, ids) :: addId rest attr i
  /-- Walk the specs, numbering them in registration order. -/
  go : List IndexSpec → Nat → List (String × List Nat) → List (String × List Nat)
  | [], _, reg => reg
  | spec :: rest, i, reg => go rest (i + 1) (addId reg spec.attr i)

/-- `IndexedSet.__init__`: deduplicate the initial objects, create the
empty indexes and the registry, then `self.update(self.objs)` to populate
the indexes. -/
def IndexedSet.init (objs : List Obj)
    (specs : List IndexSpec)
    (attrs : List (String × (Obj → Except Err Val))) : Except Err IndexedSet :=
  let objs0 := objs.foldl pyObjInsert []
  let s0 : IndexedSet :=
    { objs := objs0
      attrs := attrs
      indexArr := specs.map (fun sp => ⟨sp.kind, sp.attr, []⟩)
      registry := buildRegistry specs }
  s0.updateObjs objs0

/-- One public mutation call on the facade. -/
inductive Op where
  | add (o : Obj)
  | discard (o : Obj)
  | update (objs : List Obj)
  | differenceUpdate (objs : List Obj)

/-- Apply one mutation call. -/
def IndexedSet.applyOp (s : IndexedSet) : Op → Except Err IndexedSet
  | .add o => s.addObj o
  | .discard o => s.discardObj o
  | .update objs => s.updateObjs objs
  | .differenceUpdate objs => s.differenceUpdateObjs objs

/-- Apply a sequence of mutation calls. -/
def IndexedSet.runOps (s : IndexedSet) : List Op → Except Err IndexedSet
  | [] => .ok s
  | op :: rest => do
    let s' ← s.applyOp op
    s'.runOps rest

/-- Construct a facade and run a sequence of mutation calls on it. -/
def IndexedSet.fromOps (objs : List Obj) (specs : List IndexSpec)
    (attrs : List (String × (Obj → Except Err Val))) (ops : List Op) :
    Except Err IndexedSet := do
  let s ← IndexedSet.init objs specs attrs
  s.runOps ops

/-! ## The parser's `In` conversion (`Converter._convert_in`, `odex/parse.py`)

sqlglot is an external library; only the shape of its `exp.In` node is
modelled: `this` (the member side, given here already converted, since
`_convert_in` recursively calls `self.convert` on it), the optional
`field` argument produced by the `x IN field` form, and the `expressions`
list produced by the `x IN (a, b, ...)` form.  Parsing the string
`"a IN (1,3)"` yields a node with `this = Column a`, no `field`, and
`expressions = [Literal 1, Literal 3]`. -/

/-- The data of a sqlglot `exp.In` node consumed by `_convert_in`. -/
structure ExpIn where
  this : Condition
  field : Option String
  expressions : List Val

/-- `Converter._convert_in`: only the `field` form (`x IN field`) is
translated; the source never reads `expressions`, so the array form raises
`ValueError("Unsupported sqlglot In")`. -/
def Converter.convertIn (e : ExpIn) : Except Err Condition :=
  match e.field with
  | some f => .ok (.binOp .In e.this (.attribute f))
  | Option.none => .error (.valueError "Unsupported sqlglot In")

/-! ## Invariant predicates for index coherence -/

/-- The claim-facing coherence property: for every registered index and
every stored object, the extractor succeeds and every value it yields
resolves back, via `lookup`, to a set containing the object. -/
def IndexedSet.Coherent (s : IndexedSet) : Prop :=
  ∀ ix ∈ s.indexArr, ∀ o ∈ s.objs,
    ∃ vals, ix.extractValues s o = .ok vals ∧
      ∀ v ∈ vals, ∃ g, ix.lookup v = .ok g ∧ o ∈ g

/-- Every group member is a stored object (groups never hold strangers). -/
def HashIndex.Tight (X : List Obj) (ix : HashIndex) : Prop :=
  ∀ e ∈ ix.idx, ∀ o ∈ e.2, o ∈ X

/-- Every group member is keyed by one of its own extracted values:
extraction succeeds and yields a scalar `==`-equal to the entry's key. -/
def HashIndex.KeyedOk (s : IndexedSet) (ix : HashIndex) : Prop :=
  ∀ e ∈ ix.idx, ∀ o ∈ e.2,
    ∃ vals, ix.extractValues s o = .ok vals ∧
      ∃ sc, Val.scalar sc ∈ vals ∧ Scalar.pyEq e.1 sc

/-- Dict keys are pairwise `==`-inequal (Python dict key uniqueness). -/
def HashIndex.UniqKeys (ix : HashIndex) : Prop :=
  ix.idx.Pairwise (fun e1 e2 => Scalar.pyEq e1.1 e2.1 = false)

/-- Groups are duplicate-free (Python sets). -/
def HashIndex.NodupGroups (ix : HashIndex) : Prop :=
  ∀ e ∈ ix.idx, e.2.Nodup

/-- Coherence of one index over a set of objects. -/
def HashIndex.Coh (s : IndexedSet) (Y : List Obj) (ix : HashIndex) : Prop :=
  ∀ o ∈ Y, ∃ vals, ix.extractValues s o = .ok vals ∧
    ∀ v ∈ vals, ∃ g, ix.lookup v = .ok g ∧ o ∈ g

/-- Every index position is visited by `_iter_indexes`. -/
def IndexedSet.Covers (s : IndexedSet) : Prop :=
  ∀ j < s.indexArr.length, j ∈ s.iterIndexIds

/-- The invariant pieces of one index relative to a context state `s0`
(read only for its `attrs`), a bounding object set `X` and a covered
object set `Y`. -/
def HashIndex.IdxA (s0 : IndexedSet) (X Y : List Obj) (ix : HashIndex) : Prop :=
  ix.Tight X ∧ ix.KeyedOk s0 ∧ ix.UniqKeys ∧ ix.NodupGroups ∧ ix.Coh s0 Y

/-- Every id yielded by `_iter_indexes` is a valid index position. -/
def IndexedSet.ValidIds (s : IndexedSet) : Prop :=
  ∀ i ∈ s.iterIndexIds, i < s.indexArr.length

/-- The full facade invariant maintained by the mutation operations. -/
def IndexedSet.Inv (s : IndexedSet) : Prop :=
  s.objs.Nodup ∧
  (∀ ix ∈ s.indexArr, ix.IdxA s s.objs s.objs) ∧
  s.Covers ∧
  s.ValidIds

/-! ## A store model of plan objects and `Plan.transform`'s in-place updates

The functional optimizer above abstracts away object identity.  To settle
the frame-effect claim — `optimize` mutates the plan it was given — this
section re-renders `Plan.transform` and the default rules over a heap of
plan nodes addressed by identity.  `transform_inputs` assigns
`self.inputs` / `self.input` in place (a store update at the node's own
address) before the rule runs; a rule that builds a fresh node allocates
it, while `MergeSetOps` mutates the node it was handed and returns the
same address. -/

namespace Mut

/-- A plan node whose children are references into the store. -/
inductive PNode where
  | empty
  | scanFilter (condition : Condition)
  | filterNode (condition : Condition) (input : Nat)
  | intersectNode (inputs : List Nat)
  | unionNode (inputs : List Nat)
  | indexLookup (index : Nat) (value : Val)
  | indexRange (index : Nat) (range : Range)

/-- The heap of plan objects. -/
structure Store where
  nodes : List (Nat × PNode)
  next : Nat

/-- Look up an address in the node list. -/
def readList (nodes : List (Nat × PNode)) (i : Nat) : Option PNode :=
  match nodes with
  | [] => Option.none
  | (j, n) :: rest => if j == i then some n else readList rest i

/-- Dereference a plan object. -/
def Store.read (st : Store) (i : Nat) : Option PNode :=
  readList st.nodes i

/-- Replace the binding for an address. -/
def writeList (nodes : List (Nat × PNode)) (i : Nat) (n : PNode) :
    List (Nat × PNode) :=
  match nodes with
  | [] => []
  | (j, m) :: rest =>
    if j == i then (j, n) :: rest else (j, m) :: writeList rest i n

/-- Overwrite the node at address `i` (in-place mutation of that object). -/
def Store.write (st : Store) (i : Nat) (n : PNode) : Store :=
  ⟨writeList st.nodes i n, st.next⟩

/-- Allocate a fresh plan object. -/
def Store.alloc (st : Store) (n : PNode) : Store × Nat :=
  (⟨st.nodes ++ [(st.next, n)], st.next + 1⟩, st.next)

mutual

/-- Allocate a whole (pure) plan tree, returning the root address. -/
def allocPlan (st : Store) : Plan → Store × Nat
  | .empty => st.alloc .empty
  | .scanFilter c => st.alloc (.scanFilter c)
  | .filter c inp =>
    let (st1, i) := allocPlan st inp
    st1.alloc (.filterNode c i)
  | .intersect ins =>
    let (st1, is) := allocPlans st ins
    st1.alloc (.intersectNode is)
  | .union ins =>
    let (st1, is) := allocPlans st ins
    st1.alloc (.unionNode is)
  | .indexLookup i v => st.alloc (.indexLookup i v)
  | .indexRange i r => st.alloc (.indexRange i r)

/-- Allocate a list of plan trees. -/
def allocPlans (st : Store) : List Plan → Store × List Nat
  | [] => (st, [])
  | p :: ps =>
    let (st1, i) := allocPlan st p
    let (st2, is) := allocPlans st1 ps
    (st2, i :: is)

end

/-- A rule at the store level: receives the store, the current node's
address and its (already child-transformed) value; returns the possibly
changed store and the address of the replacement node. -/
def StoreRule := Store → Nat → PNode → Except Err (Store × Nat)

/-- `Plan.transform` over the store: recursively transform child plans,
assign the new child references into the node (`self.inputs = ...` /
`self.input = ...` — an update at the node's own address), then apply the
rule to the node.  The `fuel` argument bounds the recursion depth (the
Python original recurses on the object graph, which is a tree in every
pipeline run). -/
def transformAt (rule : StoreRule) : Nat → Store → Nat → Except Err (Store × Nat)
  | 0, _, _ => .error (.valueError "recursion limit")
  | fuel + 1, st, i =>
    match st.read i with
    | Option.none => .error (.valueError "invalid plan reference")
    | some n =>
      match n with
      | .filterNode c inp => do
        let (st1, inp') ← transformAt rule fuel st inp
        let n' := PNode.filterNode c inp'
        rule (st1.write i n') i n'
      | .intersectNode ins => do
        let (st1, ins') ← transformChildren rule fuel st ins
        let n' := PNode.intersectNode ins'
        rule (st1.write i n') i n'
      | .unionNode ins => do
        let (st1, ins') ← transformChildren rule fuel st ins
        let n' := PNode.unionNode ins'
        rule (st1.write i n') i n'
      | other => rule st i other
where
  /-- Transform the children of a set operation in order. -/
  transformChildren (rule : StoreRule) : Nat → Store → List Nat →
      Except Err (Store × List Nat)
  | 0, _, _ => .error (.valueError "recursion limit")
  | _ + 1, st, [] => .ok (st, [])
  | fuel + 1, st, c :: cs => do
    let (st1, c') ← transformAt rule fuel st c
    let (st2, cs') ← transformChildren rule fuel st1 cs
    .ok (st2, c' :: cs')

/-- `MergeSetOps` at the store level: splice the inputs of same-kind
children into this node (mutating it in place) and return its address. -/
def mergeSetOpsRule : StoreRule := fun st i n =>
  match n with
  | .intersectNode ins =>
    let flat := ins.foldr (fun c acc =>
      (match st.read c with
       | some (.intersectNode xs) => xs
       | _ => [c]) ++ acc) []
    .ok (st.write i (.intersectNode flat), i)
  | .unionNode ins =>
    let flat := ins.foldr (fun c acc =>
      (match st.read c with
       | some (.unionNode xs) => xs
       | _ => [c]) ++ acc) []
    .ok (st.write i (.unionNode flat), i)
  | _ => .ok (st, i)

/-- `UseIndex` at the store level: compute the replacement with the pure
rule and allocate it as fresh objects; without a match the scan keeps its
address. -/
def useIndexRule (s : IndexedSet) : StoreRule := fun st i n =>
  match n with
  | .scanFilter c => do
    let p ← UseIndex.transform s (.scanFilter c)
    match p with
    | .scanFilter _ => .ok (st, i)
    | replacement =>
      let (st1, j) := allocPlan st replacement
      .ok (st1, j)
  | _ => .ok (st, i)

/-- The ranged child addresses of an intersect, grouped by index. -/
def groupChildren (st : Store) (ins : List Nat) : List (Nat × List Nat) :=
  ins.foldl (fun gs c =>
    match st.read c with
    | some (.indexLookup idx _) => addTo gs idx c
    | some (.indexRange idx _) => addTo gs idx c
    | _ => gs) []
where
  /-- Append an address to its index's group. -/
  addTo (gs : List (Nat × List Nat)) (idx : Nat) (c : Nat) : List (Nat × List Nat) :=
    match gs with
    | [] => [(idx, [c])]
    | (k, cs) :: rest =>
      if k == idx then (k, cs ++ [c]) :: rest else (k, cs) :: addTo rest idx c

/-- The range denoted by a ranged child (a lookup is the point range). -/
def childRange (st : Store) (c : Nat) : Range :=
  match st.read c with
  | some (.indexLookup _ v) => ⟨some ⟨v, true⟩, some ⟨v, true⟩⟩
  | some (.indexRange _ r) => r
  | _ => ⟨Option.none, Option.none⟩  -- unreachable: groups hold only ranged children

/-- Process the groups at the store level: singleton groups keep their
child's address, larger groups allocate one fresh `IndexRange`;
`Option.none` models the early `return Empty()`. -/
def processGroupsAt (st : Store) : List (Nat × List Nat) →
    Except Err (Store × Option (List Nat))
  | [] => .ok (st, some [])
  | (idx, cs) :: rest =>
    match cs with
    | [] => processGroupsAt st rest  -- unreachable: groups are created nonempty
    | [c] => do
      let (st1, tail) ← processGroupsAt st rest
      .ok (st1, tail.map (fun t => c :: t))
    | c :: cs' => do
      let folded ← CombineRanges.foldRanges (childRange st c) (cs'.map (childRange st))
      match folded with
      | Option.none => .ok (st, Option.none)
      | some nr => do
        let (st1, j) := st.alloc (.indexRange idx nr)
        let (st2, tail) ← processGroupsAt st1 rest
        .ok (st2, tail.map (fun t => j :: t))

/-- `CombineRanges` at the store level.  A one-input result returns the
input's own address; otherwise a fresh `Intersect` object is allocated and
the node that was handed in keeps its address and its mutated inputs. -/
def combineRangesRule : StoreRule := fun st i n =>
  match n with
  | .intersectNode ins => do
    let (st1, ranged) ← processGroupsAt st (groupChildren st ins)
    match ranged with
    | Option.none =>
      let (st2, j) := st1.alloc .empty
      .ok (st2, j)
    | some rangedIds =>
      let others := ins.filter (fun c =>
        match st.read c with
        | some (.indexLookup _ _) => false
        | some (.indexRange _ _) => false
        | _ => true)
      let inputs := rangedIds ++ others
      match inputs with
      | [single] => .ok (st1, single)
      | _ =>
        let (st2, j) := st1.alloc (.intersectNode inputs)
        .ok (st2, j)
  | _ => .ok (st, i)

/-- `CombineFilters` at the store level: fresh `ScanFilter` / `Filter`
(and possibly `Intersect`) objects are allocated for the combined result;
the original intersect keeps its address. -/
def combineFiltersRule : StoreRule := fun st i n =>
  match n with
  | .intersectNode ins =>
    let filters := ins.filterMap (fun c =>
      match st.read c with
      | some (.scanFilter cond) => some cond
      | _ => Option.none)
    let others := ins.filter (fun c =>
      match st.read c with
      | some (.scanFilter _) => false
      | _ => true)
    match filters with
    | [] => .ok (st, i)
    | c :: cs =>
      let combined := and_ c cs
      match others with
      | [] =>
        let (st1, j) := st.alloc (.scanFilter combined)
        .ok (st1, j)
      | [o] =>
        let (st1, j) := st.alloc (.filterNode combined o)
        .ok (st1, j)
      | _ =>
        let (st1, b) := st.alloc (.intersectNode others)
        let (st2, j) := st1.alloc (.filterNode combined b)
        .ok (st2, j)
  | _ => .ok (st, i)

/-- The default chain over the store: each rule is one full
`Plan.transform` pass; the plan reference returned by one pass feeds the
next, while mutated nodes stay behind in the store. -/
def chainAt (s : IndexedSet) (fuel : Nat) (st : Store) (root : Nat) :
    Except Err (Store × Nat) := do
  let (st1, r1) ← transformAt mergeSetOpsRule fuel st root
  let (st2, r2) ← transformAt (useIndexRule s) fuel st1 r1
  let (st3, r3) ← transformAt combineRangesRule fuel st2 r2
  transformAt combineFiltersRule fuel st3 r3

/-- Child addresses of a node (for identity-level statements). -/
def PNode.inputIds : PNode → List Nat
  | .filterNode _ i => [i]
  | .intersectNode ins => ins
  | .unionNode ins => ins
  | _ => []

/-- Is this node a `Filter` and on which input (for identity-level
statements without comparing conditions)? -/
def PNode.filterInput : PNode → Option Nat
  | .filterNode _ i => some i
  | _ => Option.none

end Mut

/-! ## Concrete fixtures (the spec's end-to-end scenarios) -/

/-- `X(a=n)` with identity tag `n`. -/
def xObj (n : Int) : Obj := ⟨n.toNat, [("a", Val.int n)]⟩

/-- The condition `Attribute("a")`. -/
def attrA : Condition := .attribute "a"

/-- An integer literal condition. -/
def intLit (n : Int) : Condition := .literal (Val.int n)

/-- `IndexedSet({X(a=1), X(a=2), X(a=3)}, indexes=[HashIndex("a")])`. -/
def hashSet3 : Except Err IndexedSet :=
  IndexedSet.init [xObj 1, xObj 2, xObj 3] [⟨.hash, "a"⟩] []

/-- `IndexedSet({X(a=1), ..., X(a=5)}, indexes=[SortedDictIndex("a")])`. -/
def sortedSet5 : Except Err IndexedSet :=
  IndexedSet.init [xObj 1, xObj 2, xObj 3, xObj 4, xObj 5] [⟨.sortedDict, "a"⟩] []

/-- The parsed condition `a = 2 AND a = 2`. -/
def condC1 : Condition :=
  .binOp .And (.binOp .Eq attrA (intLit 2)) (.binOp .Eq attrA (intLit 2))

/-- The parsed condition `a > 1 AND a <= 4`. -/
def condC3 : Condition :=
  .binOp .And (.binOp .Gt attrA (intLit 1)) (.binOp .Le attrA (intLit 4))

/-- The condition `a IN (1, 3)` — what `_convert_in` would have to produce
for the array form of `IN`. -/
def condC4 : Condition := .binOp .In attrA (.array [intLit 1, intLit 3])

/-- The sqlglot node for `"a IN (1,3)"`: member side `a`, no `field`
argument, `expressions = [1, 3]`. -/
def expInA13 : ExpIn := ⟨attrA, Option.none, [Val.int 1, Val.int 3]⟩

/-- A range `(1, ∞)` whose left bound is exclusive. -/
def rngLeftExcl : Range := ⟨some ⟨Val.int 1, false⟩, Option.none⟩

/-- A range `[1, ∞)` whose left bound is inclusive. -/
def rngLeftIncl : Range := ⟨some ⟨Val.int 1, true⟩, Option.none⟩

/-- An attribute-less object. -/
def objBare : Obj := ⟨0, []⟩

/-- A facade holding only `objBare`, with no indexes. -/
def bareSet : IndexedSet := ⟨[objBare], [], [], []⟩

/-- The literal condition `True`. -/
def truthyLit : Condition := .literal (Val.bool true)

/-- The condition `1 IN 0`, whose evaluation raises `TypeError` (an int is
not iterable). -/
def errCond : Condition := .binOp .In (intLit 1) (intLit 0)

/-- An object whose attribute `a` is an empty collection. -/
def objEmptyA : Obj := ⟨7, [("a", Val.set [])]⟩

/-- `IndexedSet(set(), indexes=[InvertedIndex("a")])`. -/
def invSetup : Except Err IndexedSet :=
  IndexedSet.init [] [⟨.inverted, "a"⟩] []

/-- The facade state of `hashSet3` written out (used as optimizer context
by the store model). -/
def hashState : IndexedSet :=
  { objs := [xObj 1, xObj 2, xObj 3]
    attrs := []
    indexArr := [⟨.hash, "a", [(.int 1, [xObj 1]), (.int 2, [xObj 2]), (.int 3, [xObj 3])]⟩]
    registry := [("a", [0])] }

/-- The initial store for the plan of `a = 2 AND a > 0`: two scan objects
and the intersect handed to `optimize`. -/
def storeC10 : Mut.Store :=
  ⟨[(0, .scanFilter (.binOp .Eq attrA (intLit 2))),
    (1, .scanFilter (.binOp .Gt attrA (intLit 0))),
    (2, .intersectNode [0, 1])], 3⟩

/-- The chain run over `storeC10` from root address 2. -/
def chainC10 : Except Err (Mut.Store × Nat) :=
  Mut.chainAt hashState 100 storeC10 2

/-- Ids present in a registry. -/
def flatIds (reg : List (String × List Nat)) : List Nat :=
  (reg.map Prod.snd).flatten

/-- The state reached by one construction and four mutations, written
out (used by the coherence witness). -/
def coherenceState : IndexedSet :=
  { objs := [xObj 2, xObj 3]
    attrs := []
    indexArr := [⟨.hash, "a",
      [(.int 1, []), (.int 2, [xObj 2]), (.int 3, [xObj 3]), (.int 4, [])]⟩]
    registry := [("a", [0])] }

/-- The freshly constructed one-index state used by the C9 witness. -/
def discardState : IndexedSet :=
  { objs := [xObj 1]
    attrs := []
    indexArr := [⟨.hash, "a", [(.int 1, [xObj 1])]⟩]
    registry := [("a", [0])] }

/-! ## Theorems settling the claims -/

/-- **C1.** The claimed equivalence `filter(c) = {o ∈ C : match(c,o)}` is
violated by the code: on `{X(a=1), X(a=2), X(a=3)}` with a `HashIndex` on
`a`, the optimizer turns `a = 2 AND a = 2` into an `IndexRange` plan
(`CombineRanges` merges the two lookups), and the executor dispatch table
has no `IndexRange` entry, so `filter` raises
`ValueError("Unsupported plan")` while the direct scan returns
`{X(a=2)}`. -/
theorem C1_filter_unsupported_plan_vs_scan :
    (hashSet3.bind fun s => s.optimizePlan (Planner.plan condC1)) =
      .ok (.indexRange 0 ⟨some ⟨Val.int 2, true⟩, some ⟨Val.int 2, true⟩⟩) ∧
    (hashSet3.bind fun s => s.filterCond condC1) =
      .error (.valueError "Unsupported plan") ∧
    (hashSet3.bind fun s => s.scanSet condC1) = .ok [xObj 2] :=
  ⟨rfl, rfl, rfl⟩

/-- **C2.** The executor does not handle every plan kind: the `executors`
table built in `IndexedSet.__init__` has no entries for `Empty` or
`IndexRange`, so `execute(Empty())` and `execute(IndexRange(idx, r))`
raise `ValueError("Unsupported plan")` on every `IndexedSet` instead of
returning `∅` and `idx.range(r)`. -/
theorem C2_executor_missing_empty_and_index_range :
    (∀ s : IndexedSet, s.execute .empty = .error (.valueError "Unsupported plan")) ∧
    (∀ (s : IndexedSet) (i : Nat) (r : Range),
      s.execute (.indexRange i r) = .error (.valueError "Unsupported plan")) :=
  ⟨fun _ => rfl, fun _ _ _ => rfl⟩

/-- **C3.** `SortedDictIndex.match` never produces the claimed
`IndexRange`: each comparison branch calls
`Range(left=..., left_inclusive=...)` (resp. `right`/`right_inclusive`),
keyword arguments the two-field `Range` dataclass rejects, so matching
`a > 1` raises `TypeError`; consequently
`filter("a > 1 AND a <= 4")` on `{X(a=1..5)}` with a `SortedDictIndex`
raises instead of returning `{X(a=2), X(a=3), X(a=4)}`, which is what the
direct scan returns. -/
theorem C3_sorted_match_raises_type_error :
    SortedDictIndex.matchCond 0 .Gt attrA (intLit 1) true =
      .error (.typeError "Range got an unexpected keyword argument") ∧
    (sortedSet5.bind fun s => s.filterCond condC3) =
      .error (.typeError "Range got an unexpected keyword argument") ∧
    (sortedSet5.bind fun s => s.scanSet condC3) = .ok [xObj 2, xObj 3, xObj 4] :=
  ⟨rfl, rfl, rfl⟩

/-- **C4.** `filter("a IN (1,3)")` cannot return `{X(a=1), X(a=3)}`:
`Converter._convert_in` only translates the `x IN field` form and raises
`ValueError("Unsupported sqlglot In")` for the array form the string
parses to.  The rest of the pipeline does behave as claimed: fed the
condition `In(a, Array(1, 3))` directly, the optimizer produces a `Union`
of two `IndexLookup`s and execution returns `{X(a=1), X(a=3)}` — only the
parser step breaks the scenario. -/
theorem C4_convert_in_rejects_array_form :
    Converter.convertIn expInA13 = .error (.valueError "Unsupported sqlglot In") ∧
    (hashSet3.bind fun s => s.optimizePlan (Planner.plan condC4)) =
      .ok (.union [.indexLookup 0 (Val.int 1), .indexLookup 0 (Val.int 3)]) ∧
    (hashSet3.bind fun s => s.filterCond condC4) = .ok [xObj 1, xObj 3] :=
  ⟨rfl, rfl, rfl⟩

/-- **C5.** `Range.combine` is not commutative: `_combine_bounds` compares
the two bounds as whole `(value, inclusive)` tuples, so two bounds with
equal values but different inclusivity skip the AND branch and fall
through to the comparison, which returns its second argument; swapping the
arguments therefore swaps the result. -/
theorem C5_combine_not_commutative :
    Range.combine rngLeftExcl rngLeftIncl =
      .ok (some ⟨some ⟨Val.int 1, true⟩, Option.none⟩) ∧
    Range.combine rngLeftIncl rngLeftExcl =
      .ok (some ⟨some ⟨Val.int 1, false⟩, Option.none⟩) ∧
    Range.combine rngLeftExcl rngLeftIncl ≠ Range.combine rngLeftIncl rngLeftExcl := by
  refine ⟨rfl, rfl, fun h => ?_⟩
  rw [show Range.combine rngLeftExcl rngLeftIncl =
      .ok (some ⟨some ⟨Val.int 1, true⟩, Option.none⟩) from rfl,
    show Range.combine rngLeftIncl rngLeftExcl =
      .ok (some ⟨some ⟨Val.int 1, false⟩, Option.none⟩) from rfl] at h
  simp at h

/-- **C6.** Combining equal-valued left bounds does not AND the
inclusivities: for `left=(1, exclusive)` and `left=(1, inclusive)` the
guard `a == b` (whole-tuple equality) fails, the value comparison `1 > 1`
fails, and the second bound `(1, inclusive)` is returned unchanged — not
`(1, exclusive AND inclusive) = (1, exclusive)` as claimed. -/
theorem C6_equal_values_keep_second_inclusivity :
    Range.combine rngLeftExcl rngLeftIncl =
      .ok (some ⟨some ⟨Val.int 1, true⟩, Option.none⟩) ∧
    some (⟨Val.int 1, true⟩ : Bound) ≠ some ⟨Val.int 1, false && true⟩ :=
  ⟨rfl, by decide⟩

/-- **C7 (counterexample).** The matcher does not short-circuit: with
`l = True` (truthy) and `r = 1 IN 0` (whose evaluation raises
`TypeError`), `match(Or(l, r), o)` raises instead of returning the truthy
value of `l`, because `match_binop` evaluates both children before
applying the `l or r` lambda. -/
theorem C7_or_evaluates_right_operand :
    bareSet.matchCond truthyLit objBare = .ok (Val.bool true) ∧
    (Val.bool true).truthy = true ∧
    bareSet.matchCond (.binOp .Or truthyLit errCond) objBare =
      .error (.typeError "argument is not iterable") :=
  ⟨rfl, rfl, rfl⟩

/-- **C7 (amended).** `And`/`Or` evaluate both operands eagerly; when both
evaluations succeed, `Or` returns the left value if truthy and otherwise
the right value, and `And` dually — the selection, not the evaluation, is
lazy.  (If evaluating the right operand raises, the whole match raises,
even when the left value already decides the connective.) -/
theorem C7_amended_eager_value_selection (s : IndexedSet) (o : Obj)
    (l r : Condition) (lv rv : Val)
    (hl : s.matchCond l o = .ok lv) (hr : s.matchCond r o = .ok rv) :
    s.matchCond (.binOp .Or l r) o = .ok (if lv.truthy then lv else rv) ∧
    s.matchCond (.binOp .And l r) o = .ok (if lv.truthy then rv else lv) := by
  constructor <;> (simp only [IndexedSet.matchCond, hl, hr, binOpEval]; rfl)

/-- Witness for the amended C7 at concrete inputs. -/
theorem C7_amended_eager_value_selection_witness :
    bareSet.matchCond (.binOp .Or truthyLit (intLit 0)) objBare =
      .ok (if (Val.bool true).truthy then Val.bool true else Val.int 0) ∧
    bareSet.matchCond (.binOp .And truthyLit (intLit 0)) objBare =
      .ok (if (Val.bool true).truthy then Val.int 0 else Val.bool true) :=
  C7_amended_eager_value_selection bareSet objBare truthyLit (intLit 0)
    (Val.bool true) (Val.int 0) rfl rfl

/-- **C9 (counterexample).** `discard` of a non-member is not always a
`KeyError`: with one registered `InvertedIndex` on `a` and an object whose
`a` is an empty collection, the extractor yields no values, so
`index.remove` never calls `set.remove` and `discard` returns silently,
leaving the state unchanged. -/
theorem C9_inverted_empty_discard_is_noop :
    (invSetup.map fun s => s.indexArr.length) = .ok 1 ∧
    (invSetup.map fun s => decide (objEmptyA ∈ s.objs)) = .ok false ∧
    ((invSetup.bind fun s => s.discardObj objEmptyA).map fun s' =>
      (s'.objs, s'.indexArr.map HashIndex.idx)) = .ok ([], [[]]) :=
  ⟨rfl, rfl, rfl⟩

/-- **C10.** `optimize` mutates its argument: running the default chain
over the plan objects of `a = 2 AND a > 0` (addresses 0, 1 with the
intersect handed in at address 2), the pass returns a fresh `Filter`
object at address 5 whose input is the `IndexLookup` allocated at address
3 — while the intersect object the caller passed in now has inputs
`[3, 1]` instead of its original `[0, 1]`, sharing the mutated child 3
with the returned plan. -/
theorem C10_optimize_mutates_argument :
    (storeC10.read 2).map Mut.PNode.inputIds = some [0, 1] ∧
    chainC10.map (fun pr => pr.2) = .ok 5 ∧
    chainC10.map (fun pr => (pr.1.read 2).map Mut.PNode.inputIds) =
      .ok (some [3, 1]) ∧
    chainC10.map (fun pr => (pr.1.read 5).map Mut.PNode.filterInput) =
      .ok (some (some 3)) ∧
    chainC10.map (fun pr => (pr.1.read 3).map Mut.PNode.inputIds) =
      .ok (some []) :=
  ⟨rfl, rfl, rfl, rfl, rfl⟩

end Odex

namespace Odex

/-! ## Properties of Python scalar equality -/

/-- Characterization of Python scalar equality: two scalars are `==` iff
they are numeric with the same rational value, the same string, or both
`None`. -/
theorem Scalar.pyEq_iff (a b : Scalar) :
    Scalar.pyEq a b = true ↔
      (∃ x, a.asRat? = some x ∧ b.asRat? = some x) ∨
      (∃ s, a = .str s ∧ b = .str s) ∨
      (a = .none ∧ b = .none) := by
  cases a <;> cases b <;>
    simp [Scalar.pyEq, Scalar.asRat?] <;>
    (try split_ifs) <;> (try simp_all) <;>
    constructor <;> intro h <;> exact_mod_cast h.symm

/-- Python `==` is reflexive on scalars. -/
theorem Scalar.pyEq_refl (s : Scalar) : Scalar.pyEq s s = true := by
  rw [Scalar.pyEq_iff]
  cases s <;> simp [Scalar.asRat?]

/-- Python `==` is symmetric on scalars. -/
theorem Scalar.pyEq_symm {a b : Scalar} (h : Scalar.pyEq a b = true) :
    Scalar.pyEq b a = true := by
  rw [Scalar.pyEq_iff] at h ⊢
  rcases h with ⟨x, hax, hbx⟩ | ⟨s, ha, hb⟩ | ⟨ha, hb⟩
  · exact Or.inl ⟨x, hbx, hax⟩
  · exact Or.inr (Or.inl ⟨s, hb, ha⟩)
  · exact Or.inr (Or.inr ⟨hb, ha⟩)

/-- Python `==` is transitive on scalars. -/
theorem Scalar.pyEq_trans {a b c : Scalar} (h1 : Scalar.pyEq a b = true)
    (h2 : Scalar.pyEq b c = true) : Scalar.pyEq a c = true := by
  rw [Scalar.pyEq_iff] at h1 h2 ⊢
  rcases h1 with ⟨x, hax, hbx⟩ | ⟨s, ha, hb⟩ | ⟨ha, hb⟩ <;>
    rcases h2 with ⟨y, hby, hcy⟩ | ⟨t, hbt, hct⟩ | ⟨hbn, hcn⟩ <;>
    simp_all

/-! ## Properties of the index map operations -/

/-- After `mapAddObj m k o`, looking up `k` finds a group containing `o`. -/
theorem mapGet_mapAddObj_self (m : List (Scalar × List Obj)) (k : Scalar) (o : Obj) :
    ∃ g, mapGet (mapAddObj m k o) k = some g ∧ o ∈ g := by
  induction m with
  | nil => exact ⟨[o], by simp [mapAddObj, mapGet, Scalar.pyEq_refl k], by simp⟩
  | cons e rest ih =>
    by_cases h : Scalar.pyEq e.1 k = true
    · refine ⟨if e.2.contains o then e.2 else e.2 ++ [o], ?_, ?_⟩
      · simp [mapAddObj, mapGet, h]
      · by_cases hc : o ∈ e.2 <;> simp [hc]
    · obtain ⟨g, hg, hog⟩ := ih
      exact ⟨g, by simp [mapAddObj, mapGet, h, hg], hog⟩

/-- `mapAddObj` preserves existing group membership at every key. -/
theorem mapGet_mapAddObj_mem {m : List (Scalar × List Obj)} {v : Scalar}
    {g : List Obj} {o' : Obj} (k : Scalar) (o : Obj)
    (hget : mapGet m v = some g) (hmem : o' ∈ g) :
    ∃ g', mapGet (mapAddObj m k o) v = some g' ∧ o' ∈ g' := by
  induction m with
  | nil => simp [mapGet] at hget
  | cons e rest ih =>
    by_cases hek : Scalar.pyEq e.1 k = true
    · by_cases hev : Scalar.pyEq e.1 v = true
      · refine ⟨if e.2.contains o then e.2 else e.2 ++ [o], ?_, ?_⟩
        · simp [mapAddObj, mapGet, hek, hev]
        · have hge : e.2 = g := by simpa [mapGet, hev] using hget
          subst hge
          by_cases hc : o ∈ e.2 <;> simp [hc, hmem]
      · have hget' : mapGet rest v = some g := by simpa [mapGet, hev] using hget
        exact ⟨g, by simp [mapAddObj, mapGet, hek, hev, hget'], hmem⟩
    · by_cases hev : Scalar.pyEq e.1 v = true
      · have hge : e.2 = g := by simpa [mapGet, hev] using hget
        subst hge
        exact ⟨e.2, by simp [mapAddObj, mapGet, hek, hev], hmem⟩
      · have hget' : mapGet rest v = some g := by simpa [mapGet, hev] using hget
        obtain ⟨g', hg', ho'⟩ := ih hget'
        exact ⟨g', by simp [mapAddObj, mapGet, hek, hev, hg'], ho'⟩


/-- Every member of a group of `mapAddObj m k o` is either an old member
of the group with the same key, or `o` itself under a key `==` to `k`. -/
theorem mapAddObj_spec (m : List (Scalar × List Obj)) (k : Scalar) (o : Obj) :
    ∀ e ∈ mapAddObj m k o, ∀ o' ∈ e.2,
      (∃ g, (e.1, g) ∈ m ∧ o' ∈ g) ∨
      (o' = o ∧ Scalar.pyEq e.1 k = true) := by
  induction m with
  | nil =>
    intro e he o' ho'
    simp [mapAddObj] at he
    subst he
    simp at ho'
    exact Or.inr ⟨ho', Scalar.pyEq_refl k⟩
  | cons hd rest ih =>
    intro e he o' ho'
    by_cases hek : Scalar.pyEq hd.1 k = true
    · simp [mapAddObj, hek] at he
      rcases he with he | he
      · subst he
        simp at ho'
        by_cases hc : o ∈ hd.2
        · simp [hc] at ho'
          exact Or.inl ⟨hd.2, by simp, ho'⟩
        · simp [hc] at ho'
          rcases ho' with ho' | ho'
          · exact Or.inl ⟨hd.2, by simp, ho'⟩
          · exact Or.inr ⟨ho', hek⟩
      · exact Or.inl (by
          obtain ⟨g, hg, hog⟩ : ∃ g, (e.1, g) ∈ rest ∧ o' ∈ g := ⟨e.2, he, ho'⟩
          exact ⟨g, by simp [hg], hog⟩)
    · simp [mapAddObj, hek] at he
      rcases he with he | he
      · subst he
        exact Or.inl ⟨e.2, by simp, ho'⟩
      · rcases ih e he o' ho' with ⟨g, hg, hog⟩ | hr
        · exact Or.inl ⟨g, by simp [hg], hog⟩
        · exact Or.inr hr

/-- The keys of `mapAddObj m k o` are the old keys, possibly with `k`
appended. -/
theorem mapAddObj_keys (m : List (Scalar × List Obj)) (k : Scalar) (o : Obj) :
    ∀ e ∈ mapAddObj m k o, e.1 ∈ m.map Prod.fst ∨ e.1 = k := by
  induction m with
  | nil =>
    intro e he
    simp [mapAddObj] at he
    subst he
    simp
  | cons hd rest ih =>
    intro e he
    by_cases hek : Scalar.pyEq hd.1 k = true <;> simp [mapAddObj, hek] at he <;>
      rcases he with he | he
    · subst he; simp
    · simp at he ⊢
      exact Or.inl (Or.inr ⟨e.2, he⟩)
    · subst he; simp
    · rcases ih e he with hm | hk
      · simp at hm ⊢
        tauto
      · exact Or.inr hk

/-- `mapAddObj` preserves pairwise `==`-inequality of the keys. -/
theorem mapAddObj_uniq {m : List (Scalar × List Obj)} (k : Scalar) (o : Obj)
    (h : m.Pairwise (fun e1 e2 => Scalar.pyEq e1.1 e2.1 = false)) :
    (mapAddObj m k o).Pairwise (fun e1 e2 => Scalar.pyEq e1.1 e2.1 = false) := by
  induction m with
  | nil => simp [mapAddObj]
  | cons hd rest ih =>
    rcases List.pairwise_cons.mp h with ⟨hhd, hrest⟩
    by_cases hek : Scalar.pyEq hd.1 k = true
    · simp only [mapAddObj, hek, if_true]
      exact List.pairwise_cons.mpr ⟨hhd, hrest⟩
    · simp only [mapAddObj, hek, if_false]
      refine List.pairwise_cons.mpr ⟨?_, ih hrest⟩
      intro e he
      rcases mapAddObj_keys rest k o e he with hm | hk
      · obtain ⟨e', he', hkey⟩ : ∃ e' ∈ rest, e'.1 = e.1 := by
          obtain ⟨e', he', hkey⟩ := List.mem_map.mp hm
          exact ⟨e', he', hkey⟩
        rw [← hkey]
        exact hhd e' he'
      · rw [hk]
        simpa using hek

/-- `mapAddObj` keeps all groups duplicate-free. -/
theorem mapAddObj_nodup {m : List (Scalar × List Obj)} (k : Scalar) (o : Obj)
    (h : ∀ e ∈ m, e.2.Nodup) : ∀ e ∈ mapAddObj m k o, e.2.Nodup := by
  induction m with
  | nil =>
    intro e he
    simp [mapAddObj] at he
    subst he
    simp
  | cons hd rest ih =>
    obtain ⟨k1, g1⟩ := hd
    intro e he
    simp only [mapAddObj] at he
    by_cases hek : Scalar.pyEq k1 k = true
    · rw [if_pos hek] at he
      rcases List.mem_cons.mp he with he | he
      · subst he
        by_cases hc : g1.contains o = true
        · rw [if_pos hc]
          exact h (k1, g1) (by simp)
        · rw [if_neg hc]
          refine List.Nodup.append (h (k1, g1) (by simp)) (by simp)
            (List.disjoint_singleton.mpr (fun hmem => hc (List.elem_iff.mpr hmem)))
      · exact h e (by simp [he])
    · rw [if_neg hek] at he
      rcases List.mem_cons.mp he with he | he
      · subst he
        exact h (k1, g1) (by simp)
      · exact ih (fun e' he' => h e' (by simp [he'])) e he


/-- Successful `mapRemoveObj m k o` decomposes the map: the first entry
whose key is `==` to `k` contained `o` and loses it; everything else is
untouched. -/
theorem mapRemoveObj_spec {m m' : List (Scalar × List Obj)} {k : Scalar} {o : Obj}
    (h : mapRemoveObj m k o = .ok m') :
    ∃ pre kf g suf, m = pre ++ (kf, g) :: suf ∧
      m' = pre ++ (kf, g.erase o) :: suf ∧
      Scalar.pyEq kf k = true ∧ o ∈ g ∧
      ∀ e ∈ pre, Scalar.pyEq e.1 k = false := by
  induction m generalizing m' with
  | nil => simp [mapRemoveObj] at h
  | cons hd rest ih =>
    obtain ⟨k1, g1⟩ := hd
    simp only [mapRemoveObj] at h
    by_cases hek : Scalar.pyEq k1 k = true
    · rw [if_pos hek] at h
      by_cases hc : g1.contains o = true
      · rw [if_pos hc] at h
        injection h with h
        exact ⟨[], k1, g1, rest, by simp, by simp [h.symm], hek,
          List.elem_iff.mp hc, by simp⟩
      · rw [if_neg hc] at h
        exact absurd h (by simp)
    · rw [if_neg hek] at h
      cases hrec : mapRemoveObj rest k o with
      | error e =>
        rw [hrec] at h
        exact absurd h (by simp [Bind.bind, Except.bind])
      | ok rest' =>
        rw [hrec] at h
        simp only [Bind.bind, Except.bind] at h
        injection h with h
        obtain ⟨pre, kf, g, suf, hm, hm', hkf, hog, hpre⟩ := ih hrec
        refine ⟨(k1, g1) :: pre, kf, g, suf, by simp [hm], by simp [hm', h.symm], hkf, hog, ?_⟩
        intro e he
        rcases List.mem_cons.mp he with he | he
        · subst he
          simpa using hek
        · exact hpre e he

/-- If no group contains `o`, `mapRemoveObj` raises `KeyError`. -/
theorem mapRemoveObj_err {m : List (Scalar × List Obj)} (k : Scalar) (o : Obj)
    (h : ∀ e ∈ m, o ∉ e.2) : mapRemoveObj m k o = .error .keyError := by
  induction m with
  | nil => simp [mapRemoveObj]
  | cons hd rest ih =>
    obtain ⟨k1, g1⟩ := hd
    simp only [mapRemoveObj]
    by_cases hek : Scalar.pyEq k1 k = true
    · rw [if_pos hek]
      have : ¬ g1.contains o = true := fun hc => h (k1, g1) (by simp) (List.elem_iff.mp hc)
      rw [if_neg this]
    · rw [if_neg hek]
      rw [ih (fun e he => h e (by simp [he]))]
      rfl


/-- `mapRemoveObj` keeps the key list unchanged. -/
theorem mapRemoveObj_keys {m m' : List (Scalar × List Obj)} {k : Scalar} {o : Obj}
    (h : mapRemoveObj m k o = .ok m') : m'.map Prod.fst = m.map Prod.fst := by
  obtain ⟨pre, kf, g, suf, hm, hm', _, _, _⟩ := mapRemoveObj_spec h
  subst hm hm'
  simp

/-- Groups only shrink under `mapRemoveObj`. -/
theorem mapRemoveObj_shrink {m m' : List (Scalar × List Obj)} {k : Scalar} {o : Obj}
    (h : mapRemoveObj m k o = .ok m') :
    ∀ e' ∈ m', ∀ o' ∈ e'.2, ∃ g, (e'.1, g) ∈ m ∧ o' ∈ g := by
  obtain ⟨pre, kf, g, suf, hm, hm', _, _, _⟩ := mapRemoveObj_spec h
  subst hm hm'
  intro e' he' o' ho'
  rcases List.mem_append.mp he' with he' | he'
  · exact ⟨e'.2, List.mem_append.mpr (Or.inl he'), ho'⟩
  · rcases List.mem_cons.mp he' with he' | he'
    · subst he'
      exact ⟨g, by simp, List.mem_of_mem_erase ho'⟩
    · exact ⟨e'.2, by simp [he'], ho'⟩

/-- Membership of objects other than the removed one is preserved. -/
theorem mapRemoveObj_mem {m m' : List (Scalar × List Obj)} {k : Scalar} {o : Obj}
    (h : mapRemoveObj m k o = .ok m') :
    ∀ v g o', mapGet m v = some g → o' ∈ g → o' ≠ o →
      ∃ g', mapGet m' v = some g' ∧ o' ∈ g' := by
  induction m generalizing m' with
  | nil => simp [mapRemoveObj] at h
  | cons hd rest ih =>
    obtain ⟨k1, g1⟩ := hd
    simp only [mapRemoveObj] at h
    intro v g o' hget ho' hne
    by_cases hek : Scalar.pyEq k1 k = true
    · rw [if_pos hek] at h
      by_cases hc : g1.contains o = true
      · rw [if_pos hc] at h
        injection h with h
        subst h
        by_cases hv : Scalar.pyEq k1 v = true
        · have hgg : g1 = g := by simpa [mapGet, hv] using hget
          subst hgg
          exact ⟨g1.erase o, by simp [mapGet, hv], (List.mem_erase_of_ne hne).mpr ho'⟩
        · have hget' : mapGet rest v = some g := by simpa [mapGet, hv] using hget
          exact ⟨g, by simp [mapGet, hv, hget'], ho'⟩
      · rw [if_neg hc] at h
        exact absurd h (by simp)
    · rw [if_neg hek] at h
      cases hrec : mapRemoveObj rest k o with
      | error e =>
        rw [hrec] at h
        exact absurd h (by simp [Bind.bind, Except.bind])
      | ok rest' =>
        rw [hrec] at h
        simp only [Bind.bind, Except.bind] at h
        injection h with h
        subst h
        by_cases hv : Scalar.pyEq k1 v = true
        · have hgg : g1 = g := by simpa [mapGet, hv] using hget
          subst hgg
          exact ⟨g1, by simp [mapGet, hv], ho'⟩
        · have hget' : mapGet rest v = some g := by simpa [mapGet, hv] using hget
          obtain ⟨g', hg', ho''⟩ := ih hrec v g o' hget' ho' hne
          exact ⟨g', by simp [mapGet, hv, hg'], ho''⟩

/-- `mapRemoveObj` keeps groups duplicate-free. -/
theorem mapRemoveObj_nodup {m m' : List (Scalar × List Obj)} {k : Scalar} {o : Obj}
    (h : mapRemoveObj m k o = .ok m') (hn : ∀ e ∈ m, e.2.Nodup) :
    ∀ e' ∈ m', e'.2.Nodup := by
  obtain ⟨pre, kf, g, suf, hm, hm', _, _, _⟩ := mapRemoveObj_spec h
  subst hm hm'
  intro e' he'
  rcases List.mem_append.mp he' with he' | he'
  · exact hn e' (List.mem_append.mpr (Or.inl he'))
  · rcases List.mem_cons.mp he' with he' | he'
    · subst he'
      exact (hn (kf, g) (by simp)).erase o
    · exact hn e' (by simp [he'])

/-- `mapRemoveObj` keeps dict keys pairwise `==`-inequal. -/
theorem mapRemoveObj_uniq {m m' : List (Scalar × List Obj)} {k : Scalar} {o : Obj}
    (h : mapRemoveObj m k o = .ok m')
    (hu : m.Pairwise (fun e1 e2 => Scalar.pyEq e1.1 e2.1 = false)) :
    m'.Pairwise (fun e1 e2 => Scalar.pyEq e1.1 e2.1 = false) := by
  obtain ⟨pre, kf, g, suf, hm, hm', _, _, _⟩ := mapRemoveObj_spec h
  subst hm hm'
  simp only [List.pairwise_append, List.pairwise_cons] at hu ⊢
  obtain ⟨h1, ⟨h2, h3⟩, h4⟩ := hu
  exact ⟨h1, ⟨fun e he => h2 e he, h3⟩, fun a ha b hb => by
    rcases List.mem_cons.mp hb with hb | hb
    · subst hb
      exact h4 a ha (kf, g) (by simp)
    · exact h4 a ha b (by simp [hb])⟩

/-- After a successful `mapRemoveObj` on a uniquely keyed map with
duplicate-free groups, no group keyed `==` to `k` contains `o`. -/
theorem mapRemoveObj_gone {m m' : List (Scalar × List Obj)} {k : Scalar} {o : Obj}
    (h : mapRemoveObj m k o = .ok m')
    (hu : m.Pairwise (fun e1 e2 => Scalar.pyEq e1.1 e2.1 = false))
    (hn : ∀ e ∈ m, e.2.Nodup) :
    ∀ e' ∈ m', Scalar.pyEq e'.1 k = true → o ∉ e'.2 := by
  obtain ⟨pre, kf, g, suf, hm, hm', hkf, hog, hpre⟩ := mapRemoveObj_spec h
  subst hm hm'
  intro e' he' hke' ho'
  simp only [List.pairwise_append, List.pairwise_cons] at hu
  obtain ⟨h1, ⟨h2, h3⟩, h4⟩ := hu
  rcases List.mem_append.mp he' with he' | he'
  · exact absurd hke' (by simp [hpre e' he'])
  · rcases List.mem_cons.mp he' with he' | he'
    · subst he'
      exact (hn (kf, g) (by simp)).not_mem_erase ho'
    · -- an entry of `suf` whose key is `==` to `k` would collide with `kf`
      have hcol : Scalar.pyEq kf e'.1 = true :=
        Scalar.pyEq_trans hkf (Scalar.pyEq_symm hke')
      have : Scalar.pyEq kf e'.1 = false := h2 e' he'
      simp [this] at hcol

/-- Entries whose key is not `==` to `k` are untouched by `mapRemoveObj`. -/
theorem mapRemoveObj_nonkey {m m' : List (Scalar × List Obj)} {k : Scalar} {o : Obj}
    (h : mapRemoveObj m k o = .ok m') :
    ∀ e' ∈ m', Scalar.pyEq e'.1 k = false → (e'.1, e'.2) ∈ m := by
  obtain ⟨pre, kf, g, suf, hm, hm', hkf, _, _⟩ := mapRemoveObj_spec h
  subst hm hm'
  intro e' he' hke'
  rcases List.mem_append.mp he' with he' | he'
  · exact List.mem_append.mpr (Or.inl he')
  · rcases List.mem_cons.mp he' with he' | he'
    · rw [he'] at hke'
      simp [hkf] at hke'
    · simp [he']


/-! ## Behaviour of the per-index loops -/

/-- Full specification of the inner add loop `HashIndex.addVals`. -/
theorem addVals_spec {o : Obj} : ∀ (vals : List Val) (ix ix' : HashIndex),
    HashIndex.addVals ix o vals = .ok ix' →
    ix'.kind = ix.kind ∧ ix'.attr = ix.attr ∧
    (ix.UniqKeys → ix'.UniqKeys) ∧
    ((∀ e ∈ ix.idx, e.2.Nodup) → ∀ e' ∈ ix'.idx, e'.2.Nodup) ∧
    (∀ e' ∈ ix'.idx, ∀ o' ∈ e'.2,
      (∃ g, (e'.1, g) ∈ ix.idx ∧ o' ∈ g) ∨
      (o' = o ∧ ∃ sc, Val.scalar sc ∈ vals ∧ Scalar.pyEq e'.1 sc = true)) ∧
    (∀ v g o', mapGet ix.idx v = some g → o' ∈ g →
      ∃ g', mapGet ix'.idx v = some g' ∧ o' ∈ g') ∧
    (∀ v ∈ vals, ∃ sc, v = Val.scalar sc ∧
      ∃ g, mapGet ix'.idx sc = some g ∧ o ∈ g) := by
  intro vals
  induction vals with
  | nil =>
    intro ix ix' h
    simp only [HashIndex.addVals] at h
    injection h with h
    subst h
    refine ⟨rfl, rfl, fun hu => hu, fun hn => hn, ?_, ?_, ?_⟩
    · intro e' he' o' ho'
      exact Or.inl ⟨e'.2, he', ho'⟩
    · intro v g o' hget ho'
      exact ⟨g, hget, ho'⟩
    · intro v hv
      simp at hv
  | cons v vs ih =>
    intro ix ix' h
    simp only [HashIndex.addVals] at h
    cases v with
    | scalar k =>
      simp only [asKey, Bind.bind, Except.bind] at h
      set ix1 : HashIndex := { ix with idx := mapAddObj ix.idx k o } with hix1
      obtain ⟨hkind, hattr, huniq, hnodup, hmem, hpres, hcov⟩ := ih ix1 ix' h
      refine ⟨hkind, hattr, ?_, ?_, ?_, ?_, ?_⟩
      · intro hu
        exact huniq (mapAddObj_uniq k o hu)
      · intro hn
        exact hnodup (mapAddObj_nodup k o hn)
      · intro e' he' o' ho'
        rcases hmem e' he' o' ho' with ⟨g, hg, hog⟩ | ⟨rfl, sc, hsc, hke⟩
        · rcases mapAddObj_spec ix.idx k o (e'.1, g) hg o' hog with ⟨g0, hg0, hog0⟩ | ⟨rfl, hke⟩
          · exact Or.inl ⟨g0, hg0, hog0⟩
          · exact Or.inr ⟨rfl, k, by simp, hke⟩
        · exact Or.inr ⟨rfl, sc, by simp [hsc], hke⟩
      · intro w g o' hget ho'
        obtain ⟨g1, hg1, ho1⟩ := mapGet_mapAddObj_mem k o hget ho'
        exact hpres w g1 o' hg1 ho1
      · intro w hw
        rcases List.mem_cons.mp hw with hw | hw
        · subst hw
          obtain ⟨g1, hg1, ho1⟩ := mapGet_mapAddObj_self ix.idx k o
          obtain ⟨g2, hg2, ho2⟩ := hpres k g1 o hg1 ho1
          exact ⟨k, rfl, g2, hg2, ho2⟩
        · exact hcov w hw
    | set elems =>
      simp [asKey, Bind.bind, Except.bind] at h
    | list elems =>
      simp [asKey, Bind.bind, Except.bind] at h


/-- Specification of the inner removal loop `HashIndex.removeVals`:
structure is preserved, groups only shrink, and objects other than `o`
keep their memberships. -/
theorem removeVals_spec {o : Obj} : ∀ (vals : List Val) (ix ix' : HashIndex),
    HashIndex.removeVals ix o vals = .ok ix' →
    ix'.kind = ix.kind ∧ ix'.attr = ix.attr ∧
    (ix.UniqKeys → ix'.UniqKeys) ∧
    ((∀ e ∈ ix.idx, e.2.Nodup) → ∀ e' ∈ ix'.idx, e'.2.Nodup) ∧
    (∀ e' ∈ ix'.idx, ∀ o' ∈ e'.2, ∃ g, (e'.1, g) ∈ ix.idx ∧ o' ∈ g) ∧
    (∀ v g o', mapGet ix.idx v = some g → o' ∈ g → o' ≠ o →
      ∃ g', mapGet ix'.idx v = some g' ∧ o' ∈ g') := by
  intro vals
  induction vals with
  | nil =>
    intro ix ix' h
    simp only [HashIndex.removeVals] at h
    injection h with h
    subst h
    refine ⟨rfl, rfl, fun hu => hu, fun hn => hn, ?_, ?_⟩
    · intro e' he' o' ho'
      exact ⟨e'.2, he', ho'⟩
    · intro v g o' hget ho' _
      exact ⟨g, hget, ho'⟩
  | cons v vs ih =>
    intro ix ix' h
    simp only [HashIndex.removeVals] at h
    cases v with
    | scalar k =>
      simp only [asKey, Bind.bind, Except.bind] at h
      cases hrem : mapRemoveObj ix.idx k o with
      | error e =>
        rw [hrem] at h
        simp at h
      | ok m1 =>
        rw [hrem] at h
        simp only at h
        set ix1 : HashIndex := { ix with idx := m1 } with hix1
        obtain ⟨hkind, hattr, huniq, hnodup, hshrink, hpres⟩ := ih ix1 ix' h
        refine ⟨hkind, hattr, ?_, ?_, ?_, ?_⟩
        · intro hu
          exact huniq (mapRemoveObj_uniq hrem hu)
        · intro hn
          exact hnodup (mapRemoveObj_nodup hrem hn)
        · intro e' he' o' ho'
          obtain ⟨g1, hg1, ho1⟩ := hshrink e' he' o' ho'
          exact mapRemoveObj_shrink hrem (e'.1, g1) hg1 o' ho1
        · intro w g o' hget ho' hne
          obtain ⟨g1, hg1, ho1⟩ := mapRemoveObj_mem hrem w g o' hget ho' hne
          exact hpres w g1 o' hg1 ho1 hne
    | set elems =>
      simp [asKey, Bind.bind, Except.bind] at h
    | list elems =>
      simp [asKey, Bind.bind, Except.bind] at h

/-- After a successful removal loop over values that key every group
containing `o`, the object is gone from every group. -/
theorem removeVals_gone {o : Obj} : ∀ (vals : List Val) (ix ix' : HashIndex),
    HashIndex.removeVals ix o vals = .ok ix' →
    ix.UniqKeys → ix.NodupGroups →
    (∀ e ∈ ix.idx, o ∈ e.2 →
      ∃ sc, Val.scalar sc ∈ vals ∧ Scalar.pyEq e.1 sc = true) →
    ∀ e' ∈ ix'.idx, o ∉ e'.2 := by
  intro vals
  induction vals with
  | nil =>
    intro ix ix' h hu hn hkey e' he' ho'
    simp only [HashIndex.removeVals] at h
    injection h with h
    subst h
    obtain ⟨sc, hsc, _⟩ := hkey e' he' ho'
    simp at hsc
  | cons v vs ih =>
    intro ix ix' h hu hn hkey
    simp only [HashIndex.removeVals] at h
    cases v with
    | scalar k =>
      simp only [asKey, Bind.bind, Except.bind] at h
      cases hrem : mapRemoveObj ix.idx k o with
      | error e =>
        rw [hrem] at h
        simp at h
      | ok m1 =>
        rw [hrem] at h
        simp only at h
        set ix1 : HashIndex := { ix with idx := m1 } with hix1
        refine ih ix1 ix' h (mapRemoveObj_uniq hrem hu) ?_ ?_
        · intro e he
          exact mapRemoveObj_nodup hrem hn e he
        · intro e he hoe
          obtain ⟨g0, hg0, hog0⟩ := mapRemoveObj_shrink hrem e he o hoe
          obtain ⟨sc, hsc, hke⟩ := hkey (e.1, g0) hg0 hog0
          rcases List.mem_cons.mp hsc with hsc | hsc
          · -- the value just processed: its group no longer contains `o`
            injection hsc with hsc
            subst hsc
            exact absurd hoe (mapRemoveObj_gone hrem hu hn e he hke)
          · exact ⟨sc, hsc, hke⟩
    | set elems =>
      simp [asKey, Bind.bind, Except.bind] at h
    | list elems =>
      simp [asKey, Bind.bind, Except.bind] at h


/-- `getattr` depends only on the `attrs` table (and the object). -/
theorem pygetattr_congr {s1 s2 : IndexedSet} (h : s1.attrs = s2.attrs)
    (o : Obj) (item : String) : s1.pygetattr o item = s2.pygetattr o item := by
  unfold IndexedSet.pygetattr
  rw [h]

/-- Extraction depends only on the context's `attrs` and the index's kind
and attribute — not on the index map or the stored object set. -/
theorem extract_congr {s1 s2 : IndexedSet} (h : s1.attrs = s2.attrs)
    {ix1 ix2 : HashIndex} (hk : ix1.kind = ix2.kind) (ha : ix1.attr = ix2.attr)
    (o : Obj) : ix1.extractValues s1 o = ix2.extractValues s2 o := by
  unfold HashIndex.extractValues
  rw [hk, ha, pygetattr_congr h]

/-- Full specification of the batch loop `HashIndex.add`. -/
theorem hashAdd_spec (ctx : IndexedSet) : ∀ (objs : List Obj) (ix ix' : HashIndex),
    HashIndex.add ix ctx objs = .ok ix' →
    ix'.kind = ix.kind ∧ ix'.attr = ix.attr ∧
    (ix.UniqKeys → ix'.UniqKeys) ∧
    ((∀ e ∈ ix.idx, e.2.Nodup) → ∀ e' ∈ ix'.idx, e'.2.Nodup) ∧
    (∀ e' ∈ ix'.idx, ∀ o' ∈ e'.2,
      (∃ g, (e'.1, g) ∈ ix.idx ∧ o' ∈ g) ∨
      (o' ∈ objs ∧ ∃ vals, ix.extractValues ctx o' = .ok vals ∧
        ∃ sc, Val.scalar sc ∈ vals ∧ Scalar.pyEq e'.1 sc = true)) ∧
    (∀ v g o', mapGet ix.idx v = some g → o' ∈ g →
      ∃ g', mapGet ix'.idx v = some g' ∧ o' ∈ g') ∧
    (∀ o' ∈ objs, ∃ vals, ix.extractValues ctx o' = .ok vals ∧
      ∀ v ∈ vals, ∃ sc g, v = Val.scalar sc ∧ mapGet ix'.idx sc = some g ∧ o' ∈ g) := by
  intro objs
  induction objs with
  | nil =>
    intro ix ix' h
    simp only [HashIndex.add] at h
    injection h with h
    subst h
    refine ⟨rfl, rfl, fun hu => hu, fun hn => hn, ?_, ?_, ?_⟩
    · intro e' he' o' ho'
      exact Or.inl ⟨e'.2, he', ho'⟩
    · intro v g o' hget ho'
      exact ⟨g, hget, ho'⟩
    · intro o' ho'
      simp at ho'
  | cons o rest ih =>
    intro ix ix' h
    simp only [HashIndex.add, Bind.bind, Except.bind] at h
    cases hex : ix.extractValues ctx o with
    | error e =>
      rw [hex] at h
      simp at h
    | ok vals =>
      rw [hex] at h
      simp only at h
      cases hadd : ix.addVals o vals with
      | error e =>
        rw [hadd] at h
        simp at h
      | ok ix1 =>
        rw [hadd] at h
        simp only at h
        obtain ⟨hkind1, hattr1, huniq1, hnodup1, hmem1, hpres1, hcov1⟩ :=
          addVals_spec vals ix ix1 hadd
        obtain ⟨hkind2, hattr2, huniq2, hnodup2, hmem2, hpres2, hcov2⟩ := ih ix1 ix' h
        have hexeq : ∀ o'' : Obj, ix1.extractValues ctx o'' = ix.extractValues ctx o'' :=
          fun o'' => extract_congr rfl hkind1 hattr1 o''
        refine ⟨hkind2.trans hkind1, hattr2.trans hattr1, ?_, ?_, ?_, ?_, ?_⟩
        · exact fun hu => huniq2 (huniq1 hu)
        · exact fun hn => hnodup2 (hnodup1 hn)
        · intro e' he' o' ho'
          rcases hmem2 e' he' o' ho' with ⟨g, hg, hog⟩ | ⟨hor, vals', hvals', hsc⟩
          · rcases hmem1 (e'.1, g) hg o' hog with ⟨g0, hg0, hog0⟩ | ⟨rfl, sc, hsc, hke⟩
            · exact Or.inl ⟨g0, hg0, hog0⟩
            · exact Or.inr ⟨by simp, vals, hex, sc, hsc, hke⟩
          · rw [hexeq o'] at hvals'
            exact Or.inr ⟨by simp [hor], vals', hvals', hsc⟩
        · intro v g o' hget ho'
          obtain ⟨g1, hg1, ho1⟩ := hpres1 v g o' hget ho'
          exact hpres2 v g1 o' hg1 ho1
        · intro o' ho'
          rcases List.mem_cons.mp ho' with ho' | ho'
          · subst ho'
            refine ⟨vals, hex, ?_⟩
            intro v hv
            obtain ⟨sc, rfl, g1, hg1, ho1⟩ := hcov1 v hv
            obtain ⟨g2, hg2, ho2⟩ := hpres2 sc g1 o' hg1 ho1
            exact ⟨sc, g2, rfl, hg2, ho2⟩
          · obtain ⟨vals', hvals', hcv⟩ := hcov2 o' ho'
            rw [hexeq o'] at hvals'
            exact ⟨vals', hvals', hcv⟩


/-- Full specification of the batch loop `HashIndex.remove` on a well-kept
index: structure preserved, groups shrink, survivors keep memberships, and
every removed object is gone from every group. -/
theorem hashRemove_spec (ctx : IndexedSet) : ∀ (objs : List Obj) (ix ix' : HashIndex),
    HashIndex.remove ix ctx objs = .ok ix' →
    ix.UniqKeys → ix.NodupGroups →
    (∀ e ∈ ix.idx, ∀ m ∈ e.2, ∃ vals, ix.extractValues ctx m = .ok vals ∧
      ∃ sc, Val.scalar sc ∈ vals ∧ Scalar.pyEq e.1 sc = true) →
    ix'.kind = ix.kind ∧ ix'.attr = ix.attr ∧
    ix'.UniqKeys ∧ ix'.NodupGroups ∧
    (∀ e' ∈ ix'.idx, ∀ o' ∈ e'.2, ∃ g, (e'.1, g) ∈ ix.idx ∧ o' ∈ g) ∧
    (∀ v g o', mapGet ix.idx v = some g → o' ∈ g → o' ∉ objs →
      ∃ g', mapGet ix'.idx v = some g' ∧ o' ∈ g') ∧
    (∀ o'' ∈ objs, ∀ e' ∈ ix'.idx, o'' ∉ e'.2) := by
  intro objs
  induction objs with
  | nil =>
    intro ix ix' h hu hn hkey
    simp only [HashIndex.remove] at h
    injection h with h
    subst h
    refine ⟨rfl, rfl, hu, hn, ?_, ?_, ?_⟩
    · intro e' he' o' ho'
      exact ⟨e'.2, he', ho'⟩
    · intro v g o' hget ho' _
      exact ⟨g, hget, ho'⟩
    · intro o'' ho''
      simp at ho''
  | cons o rest ih =>
    intro ix ix' h hu hn hkey
    simp only [HashIndex.remove, Bind.bind, Except.bind] at h
    cases hex : ix.extractValues ctx o with
    | error e =>
      rw [hex] at h
      simp at h
    | ok vals =>
      rw [hex] at h
      simp only at h
      cases hrem : ix.removeVals o vals with
      | error e =>
        rw [hrem] at h
        simp at h
      | ok ix1 =>
        rw [hrem] at h
        simp only at h
        obtain ⟨hkind1, hattr1, huniq1, hnodup1, hshrink1, hpres1⟩ :=
          removeVals_spec vals ix ix1 hrem
        have hgone1 : ∀ e' ∈ ix1.idx, o ∉ e'.2 := by
          refine removeVals_gone vals ix ix1 hrem hu hn ?_
          intro e he hoe
          obtain ⟨vals', hvals', sc, hsc, hke⟩ := hkey e he o hoe
          rw [hex] at hvals'
          injection hvals' with hvv
          subst hvv
          exact ⟨sc, hsc, hke⟩
        have hexeq : ∀ o'' : Obj, ix1.extractValues ctx o'' = ix.extractValues ctx o'' :=
          fun o'' => extract_congr rfl hkind1 hattr1 o''
        have hu1 : ix1.UniqKeys := huniq1 hu
        have hn1 : ix1.NodupGroups := hnodup1 hn
        have hkey1 : ∀ e ∈ ix1.idx, ∀ m ∈ e.2,
            ∃ vals, ix1.extractValues ctx m = .ok vals ∧
              ∃ sc, Val.scalar sc ∈ vals ∧ Scalar.pyEq e.1 sc = true := by
          intro e he m hm
          obtain ⟨g0, hg0, hm0⟩ := hshrink1 e he m hm
          obtain ⟨vals', hvals', hsc⟩ := hkey (e.1, g0) hg0 m hm0
          exact ⟨vals', by rw [hexeq m]; exact hvals', hsc⟩
        obtain ⟨hkind2, hattr2, hu2, hn2, hshrink2, hpres2, hgone2⟩ :=
          ih ix1 ix' h hu1 hn1 hkey1
        refine ⟨hkind2.trans hkind1, hattr2.trans hattr1, hu2, hn2, ?_, ?_, ?_⟩
        · intro e' he' o' ho'
          obtain ⟨g1, hg1, ho1⟩ := hshrink2 e' he' o' ho'
          exact hshrink1 (e'.1, g1) hg1 o' ho1
        · intro v g o' hget ho' hno
          have hne : o' ≠ o := fun hh => hno (by simp [hh])
          obtain ⟨g1, hg1, ho1⟩ := hpres1 v g o' hget ho' hne
          exact hpres2 v g1 o' hg1 ho1 (fun hh => hno (by simp [hh]))
        · intro o'' ho'' e' he' hoe'
          rcases List.mem_cons.mp ho'' with ho'' | ho''
          · subst ho''
            obtain ⟨g1, hg1, ho1⟩ := hshrink2 e' he' o'' hoe'
            exact hgone1 (e'.1, g1) hg1 ho1
          · exact hgone2 o'' ho'' e' he' hoe'


/-- A `get?` hit implies the position is in range. -/
theorem get?_lt {α : Type} {l : List α} {i : Nat} {x : α} (h : l.get? i = some x) :
    i < l.length :=
  (List.get?_eq_some.mp h).choose

/-- Specification of the `_iter_indexes` add loop: the facade fields other
than `indexArr` are unchanged, and each index position evolves by zero or
more batch inserts — with the batch fully covered at every visited
position. -/
theorem addToIndexes_spec (batch : List Obj) : ∀ (ids : List Nat) (s s' : IndexedSet),
    IndexedSet.addToIndexes s batch ids = .ok s' →
    s'.objs = s.objs ∧ s'.attrs = s.attrs ∧ s'.registry = s.registry ∧
    s'.indexArr.length = s.indexArr.length ∧
    (∀ j ix', s'.indexArr.get? j = some ix' →
      ∃ ix, s.indexArr.get? j = some ix ∧
        ix'.kind = ix.kind ∧ ix'.attr = ix.attr ∧
        (ix.UniqKeys → ix'.UniqKeys) ∧
        ((∀ e ∈ ix.idx, e.2.Nodup) → (∀ e' ∈ ix'.idx, e'.2.Nodup)) ∧
        (∀ e' ∈ ix'.idx, ∀ o' ∈ e'.2,
          (∃ g, (e'.1, g) ∈ ix.idx ∧ o' ∈ g) ∨
          (o' ∈ batch ∧ ∃ vals, ix.extractValues s o' = .ok vals ∧
            ∃ sc, Val.scalar sc ∈ vals ∧ Scalar.pyEq e'.1 sc = true)) ∧
        (∀ v g o', mapGet ix.idx v = some g → o' ∈ g →
          ∃ g', mapGet ix'.idx v = some g' ∧ o' ∈ g') ∧
        (j ∈ ids → ∀ o' ∈ batch, ∃ vals, ix.extractValues s o' = .ok vals ∧
          ∀ v ∈ vals, ∃ sc g, v = Val.scalar sc ∧ mapGet ix'.idx sc = some g ∧ o' ∈ g)) := by
  intro ids
  induction ids with
  | nil =>
    intro s s' h
    simp only [IndexedSet.addToIndexes] at h
    injection h with h
    subst h
    refine ⟨rfl, rfl, rfl, rfl, ?_⟩
    intro j ix' hj
    refine ⟨ix', hj, rfl, rfl, fun hu => hu, fun hn => hn, ?_, ?_, ?_⟩
    · intro e' he' o' ho'
      exact Or.inl ⟨e'.2, he', ho'⟩
    · intro v g o' hget ho'
      exact ⟨g, hget, ho'⟩
    · intro hj'
      simp at hj'
  | cons i rest ih =>
    intro s s' h
    simp only [IndexedSet.addToIndexes] at h
    cases hgi : s.indexArr.get? i with
    | none =>
      rw [hgi] at h
      simp at h
    | some ixi =>
      rw [hgi] at h
      simp only [Bind.bind, Except.bind] at h
      cases hadd : ixi.add s batch with
      | error e =>
        rw [hadd] at h
        simp at h
      | ok ixi1 =>
        rw [hadd] at h
        simp only at h
        set s1 : IndexedSet := s.withIndex i ixi1 with hs1
        obtain ⟨hobjs, hattrs, hreg, hlen, hidx⟩ := ih s1 s' h
        have hattrs1 : s1.attrs = s.attrs := rfl
        have hexeq : ∀ (ix1 ix2 : HashIndex), ix1.kind = ix2.kind → ix1.attr = ix2.attr →
            ∀ o'' : Obj, ix1.extractValues s1 o'' = ix2.extractValues s o'' :=
          fun ix1 ix2 hk ha o'' => extract_congr hattrs1 hk ha o''
        obtain ⟨hkA, haA, huA, hnA, hmA, hpA, hcA⟩ := hashAdd_spec s batch ixi ixi1 hadd
        have hlen1 : s1.indexArr.length = s.indexArr.length := by
          simp [hs1, IndexedSet.withIndex]
        refine ⟨hobjs, hattrs, hreg, hlen.trans hlen1, ?_⟩
        intro j ix' hj
        obtain ⟨ix1, hj1, hk1, ha1, hu1, hn1, hm1, hp1, hc1⟩ := hidx j ix' hj
        by_cases hji : j = i
        · subst hji
          have hset : s1.indexArr.get? j = some ixi1 := by
            simpa [hs1, IndexedSet.withIndex] using
              List.get?_set_eq_of_lt ixi1 (get?_lt hgi)
          rw [hset] at hj1
          injection hj1 with hj1
          subst hj1
          refine ⟨ixi, hgi, hk1.trans hkA, ha1.trans haA, ?_, ?_, ?_, ?_, ?_⟩
          · exact fun hu => hu1 (huA hu)
          · exact fun hn => hn1 (hnA hn)
          · intro e' he' o' ho'
            rcases hm1 e' he' o' ho' with ⟨g, hg, hog⟩ | ⟨hob, vals', hvals', hsc⟩
            · rcases hmA (e'.1, g) hg o' hog with ⟨g0, hg0, hog0⟩ | ⟨hob, hv⟩
              · exact Or.inl ⟨g0, hg0, hog0⟩
              · exact Or.inr ⟨hob, hv⟩
            · rw [hexeq ixi1 ixi hkA haA o'] at hvals'
              exact Or.inr ⟨hob, vals', hvals', hsc⟩
          · intro v g o' hget ho'
            obtain ⟨g1, hg1, ho1⟩ := hpA v g o' hget ho'
            exact hp1 v g1 o' hg1 ho1
          · intro _ o' ho'
            obtain ⟨vals, hvals, hcv⟩ := hcA o' ho'
            refine ⟨vals, hvals, ?_⟩
            intro v hv
            obtain ⟨sc, g1, rfl, hg1, ho1⟩ := hcv v hv
            obtain ⟨g2, hg2, ho2⟩ := hp1 sc g1 o' hg1 ho1
            exact ⟨sc, g2, rfl, hg2, ho2⟩
        · have hset : s1.indexArr.get? j = s.indexArr.get? j := by
            simpa [hs1, IndexedSet.withIndex] using
              List.get?_set_ne ixi1 s.indexArr (fun hh => hji hh.symm)
          rw [hset] at hj1
          refine ⟨ix1, hj1, hk1, ha1, hu1, hn1, ?_, hp1, ?_⟩
          · intro e' he' o' ho'
            rcases hm1 e' he' o' ho' with ⟨g, hg, hog⟩ | ⟨hob, vals', hvals', hsc⟩
            · exact Or.inl ⟨g, hg, hog⟩
            · rw [hexeq ix1 ix1 rfl rfl o'] at hvals'
              exact Or.inr ⟨hob, vals', hvals', hsc⟩
          · intro hjr o' ho'
            have hjr' : j ∈ rest := by
              rcases List.mem_cons.mp hjr with hh | hh
              · exact absurd hh hji
              · exact hh
            obtain ⟨vals, hvals, hcv⟩ := hc1 hjr' o' ho'
            rw [hexeq ix1 ix1 rfl rfl o'] at hvals
            exact ⟨vals, hvals, hcv⟩


/-- Specification of the `_iter_indexes` removal loop on well-kept
indexes: the facade fields other than `indexArr` are unchanged, each index
position keeps its structure with groups only shrinking, objects outside
the batch keep their memberships, and at every visited position every
batch object is gone from every group. -/
theorem removeFromIndexes_spec (batch : List Obj) :
    ∀ (ids : List Nat) (s s' : IndexedSet),
    IndexedSet.removeFromIndexes s batch ids = .ok s' →
    (∀ j ix, s.indexArr.get? j = some ix →
      ix.UniqKeys ∧ ix.NodupGroups ∧ ix.KeyedOk s) →
    s'.objs = s.objs ∧ s'.attrs = s.attrs ∧ s'.registry = s.registry ∧
    s'.indexArr.length = s.indexArr.length ∧
    (∀ j ix', s'.indexArr.get? j = some ix' →
      ∃ ix, s.indexArr.get? j = some ix ∧
        ix'.kind = ix.kind ∧ ix'.attr = ix.attr ∧
        ix'.UniqKeys ∧ ix'.NodupGroups ∧
        (∀ e' ∈ ix'.idx, ∀ o' ∈ e'.2, ∃ g, (e'.1, g) ∈ ix.idx ∧ o' ∈ g) ∧
        (∀ v g o', mapGet ix.idx v = some g → o' ∈ g → o' ∉ batch →
          ∃ g', mapGet ix'.idx v = some g' ∧ o' ∈ g') ∧
        (j ∈ ids → ∀ o'' ∈ batch, ∀ e' ∈ ix'.idx, o'' ∉ e'.2)) := by
  intro ids
  induction ids with
  | nil =>
    intro s s' h hok
    simp only [IndexedSet.removeFromIndexes] at h
    injection h with h
    subst h
    refine ⟨rfl, rfl, rfl, rfl, ?_⟩
    intro j ix' hj
    obtain ⟨hu, hn, _⟩ := hok j ix' hj
    refine ⟨ix', hj, rfl, rfl, hu, hn, ?_, ?_, ?_⟩
    · intro e' he' o' ho'
      exact ⟨e'.2, he', ho'⟩
    · intro v g o' hget ho' _
      exact ⟨g, hget, ho'⟩
    · intro hj'
      simp at hj'
  | cons i rest ih =>
    intro s s' h hok
    simp only [IndexedSet.removeFromIndexes] at h
    cases hgi : s.indexArr.get? i with
    | none =>
      rw [hgi] at h
      simp at h
    | some ixi =>
      rw [hgi] at h
      simp only [Bind.bind, Except.bind] at h
      cases hrem : ixi.remove s batch with
      | error e =>
        rw [hrem] at h
        simp at h
      | ok ixi1 =>
        rw [hrem] at h
        simp only at h
        obtain ⟨hui, hni, hki⟩ := hok i ixi hgi
        obtain ⟨hkR, haR, huR, hnR, hshR, hpR, hgR⟩ :=
          hashRemove_spec s batch ixi ixi1 hrem hui hni hki
        set s1 : IndexedSet := s.withIndex i ixi1 with hs1
        have hattrs1 : s1.attrs = s.attrs := rfl
        have hexeq : ∀ (ix1 ix2 : HashIndex), ix1.kind = ix2.kind → ix1.attr = ix2.attr →
            ∀ o'' : Obj, ix1.extractValues s1 o'' = ix2.extractValues s o'' :=
          fun ix1 ix2 hk ha o'' => extract_congr hattrs1 hk ha o''
        have hok1 : ∀ j ix, s1.indexArr.get? j = some ix →
            ix.UniqKeys ∧ ix.NodupGroups ∧ ix.KeyedOk s1 := by
          intro j ix hj
          by_cases hji : j = i
          · subst hji
            have hset : s1.indexArr.get? j = some ixi1 := by
              simpa [hs1, IndexedSet.withIndex] using
                List.get?_set_eq_of_lt ixi1 (get?_lt hgi)
            rw [hset] at hj
            injection hj with hj
            subst hj
            refine ⟨huR, hnR, ?_⟩
            intro e he m hm
            obtain ⟨g0, hg0, hm0⟩ := hshR e he m hm
            obtain ⟨vals, hvals, hsc⟩ := hki (e.1, g0) hg0 m hm0
            refine ⟨vals, ?_, hsc⟩
            rw [hexeq ixi1 ixi hkR haR m]
            exact hvals
          · have hset : s1.indexArr.get? j = s.indexArr.get? j := by
              simpa [hs1, IndexedSet.withIndex] using
                List.get?_set_ne ixi1 s.indexArr (fun hh => hji hh.symm)
            rw [hset] at hj
            obtain ⟨hu, hn, hk⟩ := hok j ix hj
            refine ⟨hu, hn, ?_⟩
            intro e he m hm
            obtain ⟨vals, hvals, hsc⟩ := hk e he m hm
            refine ⟨vals, ?_, hsc⟩
            rw [hexeq ix ix rfl rfl m]
            exact hvals
        obtain ⟨hobjs, hattrs, hreg, hlen, hidx⟩ := ih s1 s' h hok1
        have hlen1 : s1.indexArr.length = s.indexArr.length := by
          simp [hs1, IndexedSet.withIndex]
        refine ⟨hobjs, hattrs, hreg, hlen.trans hlen1, ?_⟩
        intro j ix' hj
        obtain ⟨ix1, hj1, hk1, ha1, hu1, hn1, hsh1, hp1, hg1⟩ := hidx j ix' hj
        by_cases hji : j = i
        · subst hji
          have hset : s1.indexArr.get? j = some ixi1 := by
            simpa [hs1, IndexedSet.withIndex] using
              List.get?_set_eq_of_lt ixi1 (get?_lt hgi)
          rw [hset] at hj1
          injection hj1 with hj1
          subst hj1
          refine ⟨ixi, hgi, hk1.trans hkR, ha1.trans haR, hu1, hn1, ?_, ?_, ?_⟩
          · intro e' he' o' ho'
            obtain ⟨g1, hg1', ho1⟩ := hsh1 e' he' o' ho'
            exact hshR (e'.1, g1) hg1' o' ho1
          · intro v g o' hget ho' hno
            obtain ⟨g1, hg1', ho1⟩ := hpR v g o' hget ho' hno
            exact hp1 v g1 o' hg1' ho1 hno
          · intro _ o'' ho'' e' he' hoe'
            obtain ⟨g1, hg1', ho1⟩ := hsh1 e' he' o'' hoe'
            exact hgR o'' ho'' (e'.1, g1) hg1' ho1
        · have hset : s1.indexArr.get? j = s.indexArr.get? j := by
            simpa [hs1, IndexedSet.withIndex] using
              List.get?_set_ne ixi1 s.indexArr (fun hh => hji hh.symm)
          rw [hset] at hj1
          refine ⟨ix1, hj1, hk1, ha1, hu1, hn1, hsh1, hp1, ?_⟩
          intro hjr o'' ho'' e' he' hoe'
          have hjr' : j ∈ rest := by
            rcases List.mem_cons.mp hjr with hh | hh
            · exact absurd hh hji
            · exact hh
          exact hg1 hjr' o'' ho'' e' he' hoe'


/-! ## Set-representation helpers -/

/-- Membership after a Python set insert. -/
theorem mem_pyObjInsert {xs : List Obj} {o o' : Obj} :
    o' ∈ pyObjInsert xs o ↔ o' ∈ xs ∨ o' = o := by
  unfold pyObjInsert
  by_cases hc : xs.contains o = true
  · rw [if_pos hc]
    constructor
    · exact Or.inl
    · rintro (h | rfl)
      · exact h
      · exact List.elem_iff.mp hc
  · rw [if_neg hc]
    simp

/-- Python set insert keeps the list duplicate-free. -/
theorem nodup_pyObjInsert {xs : List Obj} {o : Obj} (h : xs.Nodup) :
    (pyObjInsert xs o).Nodup := by
  unfold pyObjInsert
  by_cases hc : xs.contains o = true
  · rw [if_pos hc]
    exact h
  · rw [if_neg hc]
    exact List.Nodup.append h (by simp)
      (List.disjoint_singleton.mpr (fun hmem => hc (List.elem_iff.mpr hmem)))

/-- Membership after folding Python set inserts. -/
theorem mem_foldl_pyObjInsert {batch : List Obj} : ∀ {xs : List Obj} {o' : Obj},
    o' ∈ batch.foldl pyObjInsert xs ↔ o' ∈ xs ∨ o' ∈ batch := by
  induction batch with
  | nil => simp
  | cons b rest ih =>
    intro xs o'
    simp only [List.foldl_cons]
    rw [ih, mem_pyObjInsert]
    constructor
    · rintro ((h | rfl) | h)
      · exact Or.inl h
      · exact Or.inr (by simp)
      · exact Or.inr (by simp [h])
    · rintro (h | h)
      · exact Or.inl (Or.inl h)
      · rcases List.mem_cons.mp h with rfl | h
        · exact Or.inl (Or.inr rfl)
        · exact Or.inr h

/-- Folding Python set inserts keeps the list duplicate-free. -/
theorem nodup_foldl_pyObjInsert {batch : List Obj} : ∀ {xs : List Obj},
    xs.Nodup → (batch.foldl pyObjInsert xs).Nodup := by
  induction batch with
  | nil => exact fun h => h
  | cons b rest ih =>
    intro xs h
    exact ih (nodup_pyObjInsert h)

/-- Membership after folding erasures: survivors were members and are not
in the erased batch (on a duplicate-free list). -/
theorem mem_foldl_erase {batch : List Obj} : ∀ {xs : List Obj} {o' : Obj},
    xs.Nodup → o' ∈ batch.foldl List.erase xs → o' ∈ xs ∧ o' ∉ batch := by
  induction batch with
  | nil => simp
  | cons b rest ih =>
    intro xs o' hn h
    simp only [List.foldl_cons] at h
    obtain ⟨h1, h2⟩ := ih (hn.erase b) h
    have hxs : o' ∈ xs := List.mem_of_mem_erase h1
    refine ⟨hxs, ?_⟩
    intro hb
    rcases List.mem_cons.mp hb with rfl | hb
    · exact hn.not_mem_erase h1
    · exact h2 hb

/-- Members not in the erased batch survive the fold. -/
theorem mem_foldl_erase_of {batch : List Obj} : ∀ {xs : List Obj} {o' : Obj},
    o' ∈ xs → o' ∉ batch → o' ∈ batch.foldl List.erase xs := by
  induction batch with
  | nil => exact fun h _ => h
  | cons b rest ih =>
    intro xs o' hmem hnb
    simp only [List.foldl_cons]
    refine ih ((List.mem_erase_of_ne ?_).mpr hmem) (fun hb => hnb (by simp [hb]))
    intro hh
    exact hnb (by simp [hh])

/-- Folding erasures keeps the list duplicate-free. -/
theorem nodup_foldl_erase {batch : List Obj} : ∀ {xs : List Obj},
    xs.Nodup → (batch.foldl List.erase xs).Nodup := by
  induction batch with
  | nil => exact fun h => h
  | cons b rest ih =>
    intro xs h
    exact ih (h.erase b)

/-! ## Glue between `lookup` and the raw map -/

/-- A nonempty `mapGet` hit is visible through `lookup`. -/
theorem lookup_of_mapGet {ix : HashIndex} {k : Scalar} {g : List Obj} {o : Obj}
    (hget : mapGet ix.idx k = some g) (ho : o ∈ g) :
    ∃ g', ix.lookup (Val.scalar k) = .ok g' ∧ o ∈ g' := by
  refine ⟨if g.isEmpty then [] else g, by simp [HashIndex.lookup, hget], ?_⟩
  have hne : g.isEmpty = false := by
    cases g
    · simp at ho
    · rfl
  rw [hne]
  simpa using ho

/-- A `lookup` hit containing an object comes from a `mapGet` hit on a
scalar key. -/
theorem mapGet_of_lookup {ix : HashIndex} {v : Val} {g' : List Obj} {o : Obj}
    (h : ix.lookup v = .ok g') (ho : o ∈ g') :
    ∃ k g, v = Val.scalar k ∧ mapGet ix.idx k = some g ∧ o ∈ g := by
  cases v with
  | scalar k =>
    simp only [HashIndex.lookup] at h
    cases hm : mapGet ix.idx k with
    | none =>
      rw [hm] at h
      injection h with h
      subst h
      simp at ho
    | some g =>
      rw [hm] at h
      injection h with h
      subst h
      by_cases hg : g.isEmpty = true
      · rw [if_pos hg] at ho
        simp at ho
      · rw [if_neg hg] at ho
        exact ⟨k, g, rfl, hm, ho⟩
  | set elems => simp [HashIndex.lookup] at h
  | list elems => simp [HashIndex.lookup] at h


/-! ## Invariant preservation through the facade loops -/

/-- The add loop establishes the full invariant: starting from indexes
bounded by the old objects and coherent over `Y`, visiting every index
with a batch that tops `Y` up to the new object set yields an invariant
state. -/
theorem addLoop_inv {s s' : IndexedSet} {batch objsNew Y : List Obj}
    (hinvN : objsNew.Nodup)
    (hcovS : s.Covers)
    (hvalS : s.ValidIds)
    (hidxA : ∀ ix ∈ s.indexArr, ix.IdxA s s.objs Y)
    (hXsub : ∀ o ∈ s.objs, o ∈ objsNew)
    (hBsub : ∀ o ∈ batch, o ∈ objsNew)
    (hNewMem : ∀ o ∈ objsNew, o ∈ Y ∨ o ∈ batch)
    (h : IndexedSet.addToIndexes { s with objs := objsNew } batch
        (IndexedSet.iterIndexIds { s with objs := objsNew }) = .ok s') :
    s'.Inv := by
  set s1 : IndexedSet := { s with objs := objsNew } with hs1
  obtain ⟨hobjs, hattrs, hreg, hlen, hidx⟩ := addToIndexes_spec batch _ s1 s' h
  have hscov : ∀ j < s'.indexArr.length, j ∈ s1.iterIndexIds := by
    intro j hj
    rw [hlen] at hj
    exact hcovS j (by simpa [hs1] using hj)
  refine ⟨by rw [hobjs]; exact hinvN, ?_, ?_, ?_⟩
  · intro ix' hix'
    obtain ⟨j, hj⟩ := List.mem_iff_get?.mp hix'
    obtain ⟨ix, hjx, hk, ha, hu, hn, hm, hp, hc⟩ := hidx j ix' hj
    have hixmem : ix ∈ s.indexArr := List.get?_mem hjx
    obtain ⟨hTight, hKeyed, hUniq, hNodup, hCoh⟩ := hidxA ix hixmem
    have hexeq : ∀ o'' : Obj, ix'.extractValues s' o'' = ix.extractValues s o'' :=
      fun o'' => extract_congr (by rw [hattrs]) hk ha o''
    have hexeq1 : ∀ o'' : Obj, ix.extractValues s1 o'' = ix.extractValues s o'' :=
      fun o'' => extract_congr rfl rfl rfl o''
    refine ⟨?_, ?_, ?_, ?_, ?_⟩
    · -- Tight
      intro e' he' o' ho'
      rw [hobjs]
      rcases hm e' he' o' ho' with ⟨g, hg, hog⟩ | ⟨hob, _⟩
      · exact hXsub o' (hTight (e'.1, g) hg o' hog)
      · exact hBsub o' hob
    · -- KeyedOk
      intro e' he' o' ho'
      rcases hm e' he' o' ho' with ⟨g, hg, hog⟩ | ⟨hob, vals, hvals, hsc⟩
      · obtain ⟨vals, hvals, hsc⟩ := hKeyed (e'.1, g) hg o' hog
        exact ⟨vals, by rw [hexeq o']; exact hvals, hsc⟩
      · rw [hexeq1 o'] at hvals
        exact ⟨vals, by rw [hexeq o']; exact hvals, hsc⟩
    · exact hu hUniq
    · intro e' he'
      exact hn hNodup e' he'
    · -- Coh over the new object set
      intro o' ho'
      rw [hobjs] at ho'
      rcases hNewMem o' ho' with hY | hB
      · obtain ⟨vals, hvals, hv⟩ := hCoh o' hY
        refine ⟨vals, by rw [hexeq o']; exact hvals, ?_⟩
        intro v hvv
        obtain ⟨g, hlk, hog⟩ := hv v hvv
        obtain ⟨k, g0, rfl, hg0, hog0⟩ := mapGet_of_lookup hlk hog
        obtain ⟨g1, hg1, hog1⟩ := hp k g0 o' hg0 hog0
        exact lookup_of_mapGet hg1 hog1
      · obtain ⟨vals, hvals, hv⟩ := hc (hscov j (get?_lt hj)) o' hB
        rw [hexeq1 o'] at hvals
        refine ⟨vals, by rw [hexeq o']; exact hvals, ?_⟩
        intro v hvv
        obtain ⟨sc, g, rfl, hg, hog⟩ := hv v hvv
        exact lookup_of_mapGet hg hog
  · -- Covers
    intro j hj
    have : j ∈ s1.iterIndexIds := hscov j hj
    simpa [IndexedSet.iterIndexIds, hreg, hs1] using this
  · -- ValidIds
    intro i hi
    have hi' : i ∈ s.iterIndexIds := by
      simpa [IndexedSet.iterIndexIds, hreg, hs1] using hi
    rw [hlen]
    have := hvalS i hi'
    simpa [hs1] using this


/-- The removal loop preserves the full invariant when the new object set
is precisely the survivors of the batch. -/
theorem removeLoop_inv {s s' : IndexedSet} {batch objsNew : List Obj}
    (hinvN : objsNew.Nodup)
    (hcovS : s.Covers)
    (hvalS : s.ValidIds)
    (hidxA : ∀ ix ∈ s.indexArr, ix.IdxA s s.objs s.objs)
    (hNewSub : ∀ o ∈ objsNew, o ∈ s.objs ∧ o ∉ batch)
    (hNewOf : ∀ o ∈ s.objs, o ∉ batch → o ∈ objsNew)
    (h : IndexedSet.removeFromIndexes { s with objs := objsNew } batch
        (IndexedSet.iterIndexIds { s with objs := objsNew }) = .ok s') :
    s'.Inv := by
  set s1 : IndexedSet := { s with objs := objsNew } with hs1
  have hok : ∀ j ix, s1.indexArr.get? j = some ix →
      ix.UniqKeys ∧ ix.NodupGroups ∧ ix.KeyedOk s1 := by
    intro j ix hj
    obtain ⟨hT, hK, hU, hN, hC⟩ := hidxA ix (List.get?_mem hj)
    refine ⟨hU, hN, ?_⟩
    intro e he m hm
    obtain ⟨vals, hvals, hsc⟩ := hK e he m hm
    exact ⟨vals, by rw [extract_congr (rfl : s1.attrs = s.attrs) rfl rfl m]; exact hvals, hsc⟩
  obtain ⟨hobjs, hattrs, hreg, hlen, hidx⟩ := removeFromIndexes_spec batch _ s1 s' h hok
  have hscov : ∀ j < s'.indexArr.length, j ∈ s1.iterIndexIds := by
    intro j hj
    rw [hlen] at hj
    exact hcovS j (by simpa [hs1] using hj)
  refine ⟨by rw [hobjs]; exact hinvN, ?_, ?_, ?_⟩
  · intro ix' hix'
    obtain ⟨j, hj⟩ := List.mem_iff_get?.mp hix'
    obtain ⟨ix, hjx, hk, ha, hu, hn, hsh, hp, hg⟩ := hidx j ix' hj
    have hixmem : ix ∈ s.indexArr := List.get?_mem hjx
    obtain ⟨hTight, hKeyed, hUniq, hNodup, hCoh⟩ := hidxA ix hixmem
    have hexeq : ∀ o'' : Obj, ix'.extractValues s' o'' = ix.extractValues s o'' :=
      fun o'' => extract_congr (by rw [hattrs]) hk ha o''
    have hvisited : j ∈ s1.iterIndexIds := hscov j (get?_lt hj)
    refine ⟨?_, ?_, hu, hn, ?_⟩
    · -- Tight: members survived the batch removal and were stored before
      intro e' he' o' ho'
      rw [hobjs]
      obtain ⟨g, hgm, hog⟩ := hsh e' he' o' ho'
      have hmemS : o' ∈ s.objs := hTight (e'.1, g) hgm o' hog
      refine hNewOf o' hmemS ?_
      intro hb
      exact hg hvisited o' hb e' he' ho'
    · -- KeyedOk
      intro e' he' o' ho'
      obtain ⟨g, hgm, hog⟩ := hsh e' he' o' ho'
      obtain ⟨vals, hvals, hsc⟩ := hKeyed (e'.1, g) hgm o' hog
      exact ⟨vals, by rw [hexeq o']; exact hvals, hsc⟩
    · -- Coh over the survivors
      intro o' ho'
      rw [hobjs] at ho'
      obtain ⟨hmemS, hnb⟩ := hNewSub o' ho'
      obtain ⟨vals, hvals, hv⟩ := hCoh o' hmemS
      refine ⟨vals, by rw [hexeq o']; exact hvals, ?_⟩
      intro v hvv
      obtain ⟨g, hlk, hog⟩ := hv v hvv
      obtain ⟨k, g0, rfl, hg0, hog0⟩ := mapGet_of_lookup hlk hog
      obtain ⟨g1, hg1, hog1⟩ := hp k g0 o' hg0 hog0 hnb
      exact lookup_of_mapGet hg1 hog1
  · intro j hj
    have : j ∈ s1.iterIndexIds := hscov j hj
    simpa [IndexedSet.iterIndexIds, hreg, hs1] using this
  · intro i hi
    have hi' : i ∈ s.iterIndexIds := by
      simpa [IndexedSet.iterIndexIds, hreg, hs1] using hi
    rw [hlen]
    have := hvalS i hi'
    simpa [hs1] using this


/-! ## Construction establishes the invariant -/

/-- `addId` keeps the registry's ids and adds the given one. -/
theorem mem_flatIds_addId (reg : List (String × List Nat)) (attr : String)
    (i x : Nat) (h : x ∈ flatIds reg ∨ x = i) :
    x ∈ flatIds (buildRegistry.addId reg attr i) := by
  induction reg with
  | nil =>
    rcases h with h | rfl
    · simp [flatIds] at h
    · simp [buildRegistry.addId, flatIds]
  | cons e rest ih =>
    obtain ⟨a, ids⟩ := e
    by_cases ha : (a == attr) = true
    · simp only [buildRegistry.addId, ha, if_true, flatIds, List.map_cons,
        List.flatten_cons] at h ⊢
      rcases h with h | rfl
      · rcases List.mem_append.mp h with h | h
        · exact List.mem_append.mpr (Or.inl (List.mem_append.mpr (Or.inl h)))
        · exact List.mem_append.mpr (Or.inr h)
      · exact List.mem_append.mpr (Or.inl (List.mem_append.mpr (Or.inr (by simp))))
    · simp only [buildRegistry.addId, ha, if_false, flatIds, List.map_cons,
        List.flatten_cons] at h ⊢
      rcases h with h | rfl
      · rcases List.mem_append.mp h with h | h
        · exact List.mem_append.mpr (Or.inl h)
        · exact List.mem_append.mpr (Or.inr (ih (Or.inl h)))
      · exact List.mem_append.mpr (Or.inr (ih (Or.inr rfl)))

/-- Every index numbered by `go` ends up in the registry's id pool. -/
theorem mem_flatIds_go : ∀ (specs : List IndexSpec) (n : Nat)
    (reg : List (String × List Nat)) (x : Nat),
    (x ∈ flatIds reg ∨ (n ≤ x ∧ x < n + specs.length)) →
    x ∈ flatIds (buildRegistry.go specs n reg) := by
  intro specs
  induction specs with
  | nil =>
    intro n reg x h
    rcases h with h | ⟨h1, h2⟩
    · simpa [buildRegistry.go] using h
    · simp only [List.length_nil] at h2
      omega
  | cons sp rest ih =>
    intro n reg x h
    simp only [buildRegistry.go]
    refine ih (n + 1) _ x ?_
    rcases h with h | ⟨h1, h2⟩
    · exact Or.inl (mem_flatIds_addId reg sp.attr n x (Or.inl h))
    · simp only [List.length_cons] at h2
      by_cases hx : x = n
      · exact Or.inl (mem_flatIds_addId reg sp.attr n x (Or.inr hx))
      · exact Or.inr ⟨by omega, by omega⟩

/-- Converse of `mem_flatIds_addId`: `addId` adds only the given id. -/
theorem mem_flatIds_addId_inv (reg : List (String × List Nat)) (attr : String)
    (i x : Nat) (h : x ∈ flatIds (buildRegistry.addId reg attr i)) :
    x ∈ flatIds reg ∨ x = i := by
  induction reg with
  | nil =>
    simp [buildRegistry.addId, flatIds] at h
    exact Or.inr h
  | cons e rest ih =>
    obtain ⟨a, ids⟩ := e
    by_cases ha : (a == attr) = true
    · simp only [buildRegistry.addId, ha, if_true, flatIds, List.map_cons,
        List.flatten_cons] at h ⊢
      rcases List.mem_append.mp h with h | h
      · rcases List.mem_append.mp h with h | h
        · exact Or.inl (List.mem_append.mpr (Or.inl h))
        · exact Or.inr (by simpa using h)
      · exact Or.inl (List.mem_append.mpr (Or.inr h))
    · simp only [buildRegistry.addId, ha, if_false, flatIds, List.map_cons,
        List.flatten_cons] at h ⊢
      rcases List.mem_append.mp h with h | h
      · exact Or.inl (List.mem_append.mpr (Or.inl h))
      · rcases ih h with h | h
        · exact Or.inl (List.mem_append.mpr (Or.inr h))
        · exact Or.inr h

/-- Converse of `mem_flatIds_go`: `go` adds only the ids it numbers. -/
theorem mem_flatIds_go_inv : ∀ (specs : List IndexSpec) (n : Nat)
    (reg : List (String × List Nat)) (x : Nat),
    x ∈ flatIds (buildRegistry.go specs n reg) →
    x ∈ flatIds reg ∨ (n ≤ x ∧ x < n + specs.length) := by
  intro specs
  induction specs with
  | nil =>
    intro n reg x h
    exact Or.inl (by simpa [buildRegistry.go] using h)
  | cons sp rest ih =>
    intro n reg x h
    simp only [buildRegistry.go] at h
    rcases ih (n + 1) _ x h with h | ⟨h1, h2⟩
    · rcases mem_flatIds_addId_inv reg sp.attr n x h with h | rfl
      · exact Or.inl h
      · right
        simp only [List.length_cons]
        omega
    · right
      simp only [List.length_cons]
      omega

/-- The constructed registry covers every index position. -/
theorem init_covers (specs : List IndexSpec) :
    ∀ j < specs.length, j ∈ flatIds (buildRegistry specs) := by
  intro j hj
  exact mem_flatIds_go specs 0 [] j (Or.inr ⟨Nat.zero_le j, by omega⟩)

/-- `IndexedSet.init` establishes the invariant. -/
theorem init_inv {objs : List Obj} {specs : List IndexSpec}
    {attrs : List (String × (Obj → Except Err Val))} {s : IndexedSet}
    (h : IndexedSet.init objs specs attrs = .ok s) : s.Inv := by
  simp only [IndexedSet.init, IndexedSet.updateObjs] at h
  refine @addLoop_inv
    { objs := List.foldl pyObjInsert [] objs, attrs := attrs,
      indexArr := specs.map (fun sp => ⟨sp.kind, sp.attr, []⟩),
      registry := buildRegistry specs }
    s (List.foldl pyObjInsert [] objs)
    (List.foldl pyObjInsert (List.foldl pyObjInsert [] objs) (List.foldl pyObjInsert [] objs))
    [] ?_ ?_ ?_ ?_ ?_ ?_ ?_ h
  · exact nodup_foldl_pyObjInsert (nodup_foldl_pyObjInsert (by simp))
  · intro j hj
    simp only [IndexedSet.iterIndexIds]
    exact init_covers specs j (by simpa using hj)
  · intro i hi
    simp only [IndexedSet.iterIndexIds] at hi
    rcases mem_flatIds_go_inv specs 0 [] i hi with hh | ⟨_, h2⟩
    · simp [flatIds] at hh
    · simpa using h2
  · intro ix hix
    obtain ⟨sp, _, rfl⟩ := List.mem_map.mp hix
    refine ⟨?_, ?_, ?_, ?_, ?_⟩
    · intro e he
      simp at he
    · intro e he
      simp at he
    · simp [HashIndex.UniqKeys]
    · intro e he
      simp at he
    · intro o ho
      simp at ho
  · intro o ho
    exact mem_foldl_pyObjInsert.mpr (Or.inl ho)
  · intro o ho
    exact mem_foldl_pyObjInsert.mpr (Or.inr ho)
  · intro o ho
    rcases mem_foldl_pyObjInsert.mp ho with hh | hh
    · exact Or.inr hh
    · exact Or.inr hh


/-- Each public mutation preserves the invariant. -/
theorem applyOp_inv {s s' : IndexedSet} {op : Op} (hinv : s.Inv)
    (h : s.applyOp op = .ok s') : s'.Inv := by
  obtain ⟨hnodup, hidxA, hcov, hval⟩ := hinv
  cases op with
  | add o =>
    simp only [IndexedSet.applyOp, IndexedSet.addObj] at h
    refine @addLoop_inv s s' [o] (pyObjInsert s.objs o) s.objs ?_ hcov hval hidxA ?_ ?_ ?_ h
    · exact nodup_pyObjInsert hnodup
    · intro o' ho'
      exact mem_pyObjInsert.mpr (Or.inl ho')
    · intro o' ho'
      rcases List.mem_cons.mp ho' with rfl | hh
      · exact mem_pyObjInsert.mpr (Or.inr rfl)
      · simp at hh
    · intro o' ho'
      rcases mem_pyObjInsert.mp ho' with hh | rfl
      · exact Or.inl hh
      · exact Or.inr (by simp)
  | update batch =>
    simp only [IndexedSet.applyOp, IndexedSet.updateObjs] at h
    refine @addLoop_inv s s' batch (batch.foldl pyObjInsert s.objs) s.objs ?_ hcov hval hidxA ?_ ?_ ?_ h
    · exact nodup_foldl_pyObjInsert hnodup
    · intro o' ho'
      exact mem_foldl_pyObjInsert.mpr (Or.inl ho')
    · intro o' ho'
      exact mem_foldl_pyObjInsert.mpr (Or.inr ho')
    · intro o' ho'
      rcases mem_foldl_pyObjInsert.mp ho' with hh | hh
      · exact Or.inl hh
      · exact Or.inr hh
  | discard o =>
    simp only [IndexedSet.applyOp, IndexedSet.discardObj] at h
    refine @removeLoop_inv s s' [o] (s.objs.erase o) ?_ hcov hval hidxA ?_ ?_ h
    · exact hnodup.erase o
    · intro o' ho'
      refine ⟨List.mem_of_mem_erase ho', ?_⟩
      intro hb
      rcases List.mem_cons.mp hb with rfl | hh
      · exact hnodup.not_mem_erase ho'
      · simp at hh
    · intro o' ho' hb
      refine (List.mem_erase_of_ne ?_).mpr ho'
      intro hh
      exact hb (by simp [hh])
  | differenceUpdate batch =>
    simp only [IndexedSet.applyOp, IndexedSet.differenceUpdateObjs] at h
    refine @removeLoop_inv s s' batch (batch.foldl List.erase s.objs) ?_ hcov hval hidxA ?_ ?_ h
    · exact nodup_foldl_erase hnodup
    · intro o' ho'
      exact mem_foldl_erase hnodup ho'
    · intro o' ho' hb
      exact mem_foldl_erase_of ho' hb

/-- Sequences of public mutations preserve the invariant. -/
theorem runOps_inv : ∀ (ops : List Op) (s s' : IndexedSet),
    s.Inv → s.runOps ops = .ok s' → s'.Inv := by
  intro ops
  induction ops with
  | nil =>
    intro s s' hinv h
    simp only [IndexedSet.runOps] at h
    injection h with h
    subst h
    exact hinv
  | cons op rest ih =>
    intro s s' hinv h
    simp only [IndexedSet.runOps, Bind.bind, Except.bind] at h
    cases hop : s.applyOp op with
    | error e =>
      rw [hop] at h
      simp at h
    | ok s1 =>
      rw [hop] at h
      simp only at h
      exact ih s1 s' (applyOp_inv hinv hop) h

/-- Any facade built by construction followed by successful mutations
satisfies the invariant. -/
theorem fromOps_inv {objs : List Obj} {specs : List IndexSpec}
    {attrs : List (String × (Obj → Except Err Val))} {ops : List Op}
    {s : IndexedSet} (h : IndexedSet.fromOps objs specs attrs ops = .ok s) :
    s.Inv := by
  simp only [IndexedSet.fromOps, Bind.bind, Except.bind] at h
  cases hinit : IndexedSet.init objs specs attrs with
  | error e =>
    rw [hinit] at h
    simp at h
  | ok s0 =>
    rw [hinit] at h
    simp only at h
    exact runOps_inv _ s0 s (init_inv hinit) h


/-- Setting a list position to the value it already holds is a no-op. -/
theorem listSetSame {α : Type} : ∀ (l : List α) (i : Nat) (x : α),
    l.get? i = some x → l.set i x = l := by
  intro l
  induction l with
  | nil =>
    intro i x h
    simp [List.get?] at h
  | cons a rest ih =>
    intro i x h
    cases i with
    | zero =>
      injection h with h
      simp [h]
    | succ j =>
      simp only [List.get?] at h
      simp [ih j x h]

/-- The removal loop over a stranger object (absent from every group)
raises `KeyError` as soon as an index yields a value for it, and only
succeeds if every index yields none. -/
theorem removeFromIndexes_nonmember {s : IndexedSet} {o : Obj}
    (htight : ∀ i ix, s.indexArr.get? i = some ix → ∀ e ∈ ix.idx, o ∉ e.2) :
    ∀ ids : List Nat,
    (∀ i ∈ ids, i < s.indexArr.length) →
    (∀ i ∈ ids, ∀ ix, s.indexArr.get? i = some ix →
      ∃ sks : List Scalar, ix.extractValues s o = .ok (sks.map Val.scalar)) →
    (∃ i ∈ ids, ∃ ix sks, s.indexArr.get? i = some ix ∧
      ix.extractValues s o = .ok (sks.map Val.scalar) ∧ sks ≠ []) →
    IndexedSet.removeFromIndexes s [o] ids = .error .keyError := by
  intro ids
  induction ids with
  | nil =>
    intro _ _ hsome
    obtain ⟨i, hi, _⟩ := hsome
    simp at hi
  | cons i rest ih =>
    intro hvalid hex hsome
    obtain ⟨ix, hix⟩ : ∃ ix, s.indexArr.get? i = some ix := by
      have hi : i < s.indexArr.length := hvalid i (by simp)
      exact ⟨_, List.get?_eq_get hi⟩
    obtain ⟨sks, hsks⟩ := hex i (by simp) ix hix
    simp only [IndexedSet.removeFromIndexes, hix, Bind.bind, Except.bind]
    cases sks with
    | nil =>
      -- this index extracts nothing for `o`; the loop moves on unchanged
      have hrem : ix.remove s [o] = .ok ix := by
        simp only [HashIndex.remove, Bind.bind, Except.bind, hsks]
        simp [HashIndex.removeVals, HashIndex.remove]
      rw [hrem]
      have hset : s.withIndex i ix = s := by
        simp only [IndexedSet.withIndex, listSetSame s.indexArr i ix hix]
      show (s.withIndex i ix).removeFromIndexes [o] rest = Except.error Err.keyError
      rw [hset]
      refine ih (fun j hj => hvalid j (by simp [hj]))
        (fun j hj => hex j (by simp [hj])) ?_
      obtain ⟨j, hj, ix', sks', hix', hsks', hne⟩ := hsome
      rcases List.mem_cons.mp hj with rfl | hj
      · rw [hix] at hix'
        injection hix' with hix'
        subst hix'
        rw [hsks] at hsks'
        injection hsks' with hsks'
        have : sks' = [] := by
          cases sks'
          · rfl
          · simp at hsks'
        exact absurd this hne
      · exact ⟨j, hj, ix', sks', hix', hsks', hne⟩
    | cons sc rest' =>
      -- the first extracted value hits a group without `o`: KeyError
      have hrem : ix.remove s [o] = .error .keyError := by
        simp only [HashIndex.remove, Bind.bind, Except.bind, hsks]
        simp only [HashIndex.removeVals, List.map_cons, asKey, Bind.bind, Except.bind]
        rw [mapRemoveObj_err sc o (fun e he hoe => htight i ix hix e he hoe)]
      rw [hrem]


/-- **C8.** Index coherence is an invariant of the facade's mutation
operations: after construction and any sequence of successful `add`,
`discard`, `update` and `difference_update` calls, every registered
index's extractor succeeds on every stored object and every value it
yields maps back, via `lookup`, to a set containing the object. -/
theorem C8_index_coherence (objs : List Obj) (specs : List IndexSpec)
    (attrs : List (String × (Obj → Except Err Val))) (ops : List Op)
    (s : IndexedSet) (h : IndexedSet.fromOps objs specs attrs ops = .ok s) :
    s.Coherent := by
  obtain ⟨_, hidxA, _, _⟩ := fromOps_inv h
  intro ix hix o ho
  exact (hidxA ix hix).2.2.2.2 o ho

/-- Witness for C8 at a concrete run. -/
theorem C8_index_coherence_witness : coherenceState.Coherent :=
  C8_index_coherence [xObj 1] [⟨.hash, "a"⟩] []
    [.add (xObj 2), .discard (xObj 1), .update [xObj 3, xObj 4],
      .differenceUpdate [xObj 4]]
    coherenceState rfl

/-- **C9 (amended).** On a facade reached by construction and successful
mutations, `discard(obj)` (and `difference_update` containing `obj`) for a
non-member `obj` raises `KeyError`, provided each registered index's
extractor succeeds on `obj` with hashable values and at least one index
yields a value for it.  (An index extracting no values for `obj` is
skipped; if all extract nothing, the call silently succeeds.) -/
theorem C9_amended_nonmember_discard_raises (objs : List Obj)
    (specs : List IndexSpec)
    (attrs : List (String × (Obj → Except Err Val))) (ops : List Op)
    (s : IndexedSet) (o : Obj)
    (h : IndexedSet.fromOps objs specs attrs ops = .ok s)
    (hno : o ∉ s.objs)
    (hex : ∀ i ∈ s.iterIndexIds, ∀ ix, s.indexArr.get? i = some ix →
      ∃ sks : List Scalar, ix.extractValues s o = .ok (sks.map Val.scalar))
    (hsome : ∃ i ∈ s.iterIndexIds, ∃ ix sks, s.indexArr.get? i = some ix ∧
      ix.extractValues s o = .ok (sks.map Val.scalar) ∧ sks ≠ []) :
    s.discardObj o = .error .keyError ∧
    s.differenceUpdateObjs [o] = .error .keyError := by
  obtain ⟨hnodup, hidxA, hcov, hval⟩ := fromOps_inv h
  have htight : ∀ i ix, s.indexArr.get? i = some ix → ∀ e ∈ ix.idx, o ∉ e.2 := by
    intro i ix hix e he hoe
    exact hno ((hidxA ix (List.get?_mem hix)).1 e he o hoe)
  have hmain := removeFromIndexes_nonmember htight s.iterIndexIds
    (fun i hi => hval i hi) hex hsome
  constructor
  · simp only [IndexedSet.discardObj]
    rw [List.erase_of_not_mem hno]
    exact hmain
  · simp only [IndexedSet.differenceUpdateObjs, List.foldl_cons, List.foldl_nil]
    rw [List.erase_of_not_mem hno]
    exact hmain

/-- Witness for the amended C9 at concrete inputs. -/
theorem C9_amended_nonmember_discard_raises_witness :
    discardState.discardObj (xObj 2) = .error .keyError ∧
    discardState.differenceUpdateObjs [xObj 2] = .error .keyError := by
  refine C9_amended_nonmember_discard_raises [xObj 1] [⟨.hash, "a"⟩] [] []
    discardState (xObj 2) rfl (by decide) ?_ ?_
  · intro i hi ix hix
    have hi0 : i = 0 := by
      simpa [IndexedSet.iterIndexIds, discardState] using hi
    subst hi0
    have hix' : ix = ⟨.hash, "a", [(.int 1, [xObj 1])]⟩ := by
      have : some (⟨.hash, "a", [(.int 1, [xObj 1])]⟩ : HashIndex) = some ix := hix
      injection this with hh
      exact hh.symm
    subst hix'
    exact ⟨[Scalar.int 2], rfl⟩
  · exact ⟨0, by decide, ⟨.hash, "a", [(.int 1, [xObj 1])]⟩, [Scalar.int 2],
      rfl, rfl, by decide⟩

end Odex
